import Mathlib

/-!
Verification of the `markdown-sync-changes.py` script of this repository.

The script parses a markdown "changes" document into (target path, raw text)
blocks with a fixed regular expression, cleans each block's text with
`clean_content`, and writes each cleaned text to its target path, counting
successes and failures.  We embed the string-processing core as functions on
`List Char` (Python strings), model the filesystem as an association list, and
model per-block write failure with an oracle `writeOk : List Char → Bool`.
-/

namespace MarkdownSync

/-- Python's whitespace test: the characters for which `str.isspace()` is true.
This is the character class stripped by `str.strip()` / `str.rstrip()` with no
argument, and matched by the regex class `\s` on `str` patterns. -/
def pyIsSpace (c : Char) : Bool :=
  c == ' ' || c == '\t' || c == '\n' || c == '\x0b' || c == '\x0c' || c == '\r' ||
  c == '\x1c' || c == '\x1d' || c == '\x1e' || c == '\x1f' || c == '\x85' || c == '\xa0' ||
  c == '\u1680' || c == '\u2000' || c == '\u2001' || c == '\u2002' || c == '\u2003' ||
  c == '\u2004' || c == '\u2005' || c == '\u2006' || c == '\u2007' || c == '\u2008' ||
  c == '\u2009' || c == '\u200a' || c == '\u2028' || c == '\u2029' || c == '\u202f' ||
  c == '\u205f' || c == '\u3000'

/-- The characters at which Python's `str.splitlines()` breaks a line
(`\r\n` is additionally treated as a single break). -/
def isLineBoundary (c : Char) : Bool :=
  c == '\n' || c == '\r' || c == '\x0b' || c == '\x0c' || c == '\x1c' || c == '\x1d' ||
  c == '\x1e' || c == '\x85' || c == '\u2028' || c == '\u2029'

/-- Strip the longest suffix of characters satisfying `p`. -/
def rstripP (p : Char → Bool) (s : List Char) : List Char :=
  (s.reverse.dropWhile p).reverse

/-- Python `s.rstrip()`: strip trailing whitespace. -/
def rstrip (s : List Char) : List Char := rstripP pyIsSpace s

/-- Python `s.rstrip('\n')`: strip trailing newline characters only. -/
def rstripNL (s : List Char) : List Char := rstripP (fun c => c == '\n') s

/-- Python `s.strip()`: strip leading and trailing whitespace. -/
def pyStrip (s : List Char) : List Char := rstrip (s.dropWhile pyIsSpace)

/-- A triple-backtick fence. -/
def fence : List Char := ['`', '`', '`']

/-- `re.sub(r'```\s*$', '', content)` (line 88 of the script).  Without
`re.MULTILINE`, `$` anchors at the end of the string (or just before a final
newline, which `\s*` covers as well), so the unique possible match removes a
final triple backtick together with all trailing whitespace after it; if the
text stripped of trailing whitespace does not end in a fence, nothing
matches. -/
def subTrailingFence (s : List Char) : List Char :=
  let t := rstrip s
  if t.reverse.take 3 = fence then (t.reverse.drop 3).reverse else s

/-- Python `content.replace('\r\n', '\n')`: left-to-right, non-overlapping. -/
def replaceCRLF : List Char → List Char
  | [] => []
  | [c] => [c]
  | c :: c2 :: rest =>
    if c = '\r' ∧ c2 = '\n' then '\n' :: replaceCRLF rest
    else c :: replaceCRLF (c2 :: rest)

/-- Worker for `splitlines`: `acc` holds the current (reversed) line.  A
trailing line break produces no final empty line, matching Python. -/
def splitlinesAux : List Char → List Char → List (List Char)
  | [], acc => [acc.reverse]
  | [c], acc =>
    if isLineBoundary c then [acc.reverse] else [(c :: acc).reverse]
  | c :: c2 :: rest, acc =>
    if c = '\r' ∧ c2 = '\n' then
      if rest.isEmpty then [acc.reverse] else acc.reverse :: splitlinesAux rest []
    else if isLineBoundary c then
      acc.reverse :: splitlinesAux (c2 :: rest) []
    else splitlinesAux (c2 :: rest) (c :: acc)

/-- Python `content.splitlines()`. -/
def splitlines (s : List Char) : List (List Char) :=
  if s.isEmpty then [] else splitlinesAux s []

/-- Python `'\n'.join(lines)`. -/
def joinNL : List (List Char) → List Char
  | [] => []
  | [l] => l
  | l :: L => l ++ '\n' :: joinNL L

/-- `clean_content` (lines 85-99 of the script): strip a trailing stray fence,
normalize `\r\n` to `\n`, strip trailing whitespace from every line, and end
with exactly one newline. -/
def clean_content (content : List Char) : List Char :=
  let c1 := subTrailingFence content
  let c2 := replaceCRLF c1
  let c3 := joinNL ((splitlines c2).map rstrip)
  rstripNL c3 ++ ['\n']

/-! ## The delimiter-block pattern (lines 14-24 of the script)

The compiled pattern is, in sequence (with `re.DOTALL`):
` ```markdown `, `\s*`, `---`, `\s*`, `START OF MODIFIED FILE`, `\s*`,
group 1 `(src/[^\s]+?)`, `\s*`, `---`, `\s*`, ` ``` `, `(?:[a-zA-Z0-9]+)?`,
`\s*`, group 2 `(.*?)`, `\s*`, ` ``` `, `\s*`, ` ```markdown `, `\s*`, `---`,
`\s*`, `END OF MODIFIED FILE`, `[^\n]*`, `\s*`, ` ``` `.

We model it as a list of elements and run the standard backtracking search:
an element's candidate consumptions are tried in the regex engine's preference
order (greedy: longest first; lazy: shortest first), the continuation is tried
for each, and the first success wins. -/

inductive Elem where
  | lit (cs : List Char)
  | wsStar
  | pathGroup
  | optLang
  | contentGroup
  | nlFreeStar
deriving Repr

/-- First `some` produced by `f` along the list, in order. -/
def firstSome (f : α → Option β) : List α → Option β
  | [] => none
  | a :: as =>
    match f a with
    | some b => some b
    | none => firstSome f as

def srcSlash : List Char := ['s', 'r', 'c', '/']

/-- The result of a successful match: captured group 1, captured group 2,
and the remaining input after the match. -/
abbrev MatchRes := Option (List Char) × Option (List Char) × List Char

/-- Backtracking matcher for a sequence of pattern elements against a prefix
of `s`.  Returns the captures and the rest of the input after the match. -/
def runElems : List Elem → List Char → Option MatchRes
  | [], s => some (none, none, s)
  | .lit cs :: es, s =>
    if s.take cs.length = cs then runElems es (s.drop cs.length) else none
  | .wsStar :: es, s =>
    firstSome (fun n => runElems es (s.drop n))
      ((List.range ((s.takeWhile pyIsSpace).length + 1)).reverse)
  | .pathGroup :: es, s =>
    if s.take 4 = srcSlash then
      firstSome
        (fun n =>
          (runElems es ((s.drop 4).drop n)).map
            (fun r => (some (srcSlash ++ (s.drop 4).take n), r.2.1, r.2.2)))
        (List.range' 1 (((s.drop 4).takeWhile (fun c => !pyIsSpace c)).length))
    else none
  | .optLang :: es, s =>
    firstSome (fun n => runElems es (s.drop n))
      ((List.range ((s.takeWhile (fun c => c.isAlpha || c.isDigit)).length + 1)).reverse)
  | .contentGroup :: es, s =>
    firstSome
      (fun n => (runElems es (s.drop n)).map (fun r => (r.1, some (s.take n), r.2.2)))
      (List.range (s.length + 1))
  | .nlFreeStar :: es, s =>
    firstSome (fun n => runElems es (s.drop n))
      ((List.range ((s.takeWhile (fun c => !(c == '\n'))).length + 1)).reverse)

def dashes : List Char := ['-', '-', '-']
def fenceMD : List Char :=
  ['`', '`', '`', 'm', 'a', 'r', 'k', 'd', 'o', 'w', 'n']
def startPhrase : List Char :=
  ['S', 'T', 'A', 'R', 'T', ' ', 'O', 'F', ' ', 'M', 'O', 'D', 'I', 'F', 'I',
   'E', 'D', ' ', 'F', 'I', 'L', 'E']
def endPhrase : List Char :=
  ['E', 'N', 'D', ' ', 'O', 'F', ' ', 'M', 'O', 'D', 'I', 'F', 'I', 'E', 'D',
   ' ', 'F', 'I', 'L', 'E']

/-- The element sequence of `file_pattern`. -/
def thePattern : List Elem :=
  [.lit fenceMD, .wsStar, .lit dashes, .wsStar, .lit startPhrase, .wsStar,
   .pathGroup, .wsStar, .lit dashes, .wsStar, .lit fence, .optLang, .wsStar,
   .contentGroup, .wsStar, .lit fence, .wsStar, .lit fenceMD, .wsStar,
   .lit dashes, .wsStar, .lit endPhrase, .nlFreeStar, .wsStar, .lit fence]

/-- Outcome of one match attempt at the current scan position. -/
inductive StepOutcome where
  | found (m : List Char × List Char) (rest : List Char)
  | badMatch
  | noMatch
deriving Repr, DecidableEq

/-- One `finditer` step: run the pattern at the current position; a success
yields the two captured groups and the rest of the input after the match.
(`badMatch` — a success without both groups — cannot actually occur for this
pattern, which always captures both groups.) -/
def matchStep (s : List Char) : StepOutcome :=
  match runElems thePattern s with
  | some (some g1, some g2, rest) => .found (g1, g2) rest
  | some _ => .badMatch
  | none => .noMatch

/-- `file_pattern.finditer(content)` with explicit fuel: attempt a match at
the current position; on success emit the groups and resume after the match,
otherwise advance one character. -/
def findAllF : Nat → List Char → List (List Char × List Char)
  | 0, _ => []
  | fuel + 1, s =>
    match matchStep s, s with
    | .found m rest, _ => m :: findAllF fuel rest
    | .badMatch, _ => []
    | .noMatch, [] => []
    | .noMatch, _ :: t => findAllF fuel t

/-- `list(file_pattern.finditer(content))`, as (group 1, group 2) pairs. -/
def findAll (s : List Char) : List (List Char × List Char) :=
  findAllF (s.length + 1) s

/-- The parse phase of `sync_changes_to_src`: each match yields a Change
Block whose target path is `match.group(1).strip()` and whose raw text is
`match.group(2)` (lines 46-48 of the script). -/
def parseChangeBlocks (document : List Char) : List (List Char × List Char) :=
  (findAll document).map (fun m => (pyStrip m.1, m.2))

/-! ## The write loop and the surrounding tool -/

/-- The filesystem, modelled as an association list from paths to file
contents; the most recent write for a path is the first hit. -/
abbrev FS := List (List Char × List Char)

/-- Write `v` at path `p` (overwriting any existing file). -/
def fsSet (fs : FS) (p v : List Char) : FS := (p, v) :: fs

/-- The per-block loop of `sync_changes_to_src` (lines 46-63): strip the
captured path, clean the captured text, attempt the write; a failed write
(modelled by the oracle `writeOk`) is counted and does not stop the loop.
Returns the final filesystem with `(processed_count, error_count)`. -/
def processMatches (writeOk : List Char → Bool) :
    List (List Char × List Char) → FS → FS × Nat × Nat
  | [], fs => (fs, 0, 0)
  | m :: rest, fs =>
    let path := pyStrip m.1
    if writeOk path then
      let r := processMatches writeOk rest (fsSet fs path (clean_content m.2))
      (r.1, r.2.1 + 1, r.2.2)
    else
      let r := processMatches writeOk rest fs
      (r.1, r.2.1, r.2.2 + 1)

/-- `sync_changes_to_src` (lines 5-83), given the document text: if the scan
finds no block, return with no write and zero counts (the script prints
guidance and returns); otherwise run the write loop. -/
def sync_changes_to_src (writeOk : List Char → Bool) (content : List Char)
    (fs : FS) : FS × Nat × Nat :=
  let ms := findAll content
  if ms.isEmpty then (fs, 0, 0)
  else processMatches writeOk ms fs

/-- Outcome of a run of `main` (lines 101-120). -/
inductive MainOutcome where
  | missingFile
  | cancelled
  | ran (processed errors : Nat)
deriving Repr, DecidableEq

/-- Python `str.lower()` on a character (ASCII case is all the script needs:
the prompt compares against the literal `'y'`). -/
def pyLower (s : List Char) : List Char := s.map Char.toLower

/-- `main` (lines 101-120): report a missing changes file; otherwise prompt,
and unless the stripped, lowercased response is exactly `y`, cancel with no
write; otherwise run the sync.  In every case the script returns normally
(exit status 0); the outcome tells which path was taken. -/
def mainModel (fileExists : Bool) (response : List Char)
    (writeOk : List Char → Bool) (doc : List Char) (fs : FS) :
    MainOutcome × FS :=
  if !fileExists then (.missingFile, fs)
  else if pyLower (pyStrip response) ≠ ['y'] then (.cancelled, fs)
  else
    let r := sync_changes_to_src writeOk doc fs
    (.ran r.2.1 r.2.2, r.1)

/-! ## The document format accepted by the pattern

`mkBlockT` builds one Change Block in the concrete format `file_pattern`
accepts, followed by the rest of the document: the START and END marker lines
are each wrapped in a ```markdown fence, and the content region is fenced
with an optional language tag directly after the opening fence. -/

def mkBlockT (tok lang ct tail : List Char) : List Char :=
  fenceMD ++ '\n' :: (dashes ++ ' ' :: (startPhrase ++ ' ' :: (srcSlash ++
    (tok ++ ' ' :: (dashes ++ '\n' :: (fence ++ (lang ++ '\n' :: (ct ++
    '\n' :: (fence ++ '\n' :: (fenceMD ++ '\n' :: (dashes ++ ' ' ::
    (endPhrase ++ ' ' :: (srcSlash ++ (tok ++ ' ' :: (dashes ++ '\n' ::
    (fence ++ tail))))))))))))))))

/-- A changes document assembled from blocks `(separator, path token,
language tag, content)` interleaved with separator text and a final
separator. -/
def assemble : List (List Char × List Char × List Char × List Char) →
    List Char → List Char
  | [], fin => fin
  | (sep, tok, lang, ct) :: rest, fin =>
    sep ++ mkBlockT tok lang ct (assemble rest fin)

/-- A good path token: nonempty, free of whitespace, and not containing the
marker delimiter `---`. -/
def goodTok (tok : List Char) : Prop :=
  tok ≠ [] ∧ (∀ c ∈ tok, pyIsSpace c = false) ∧
    ∀ n < tok.length, (tok.drop n).take 3 ≠ dashes

/-- A good language tag: ASCII letters and digits only (possibly empty). -/
def goodLang (lang : List Char) : Prop :=
  ∀ c ∈ lang, (c.isAlpha || c.isDigit) = true

/-- Good fenced content: free of backticks (no embedded fence) and neither
starting nor ending in whitespace (otherwise the pattern's surrounding `\s*`
absorbs it and the captured text shrinks). -/
def goodContent (ct : List Char) : Prop :=
  '`' ∉ ct ∧ (ct.head?.all fun c => !pyIsSpace c) = true ∧
    (ct.getLast?.all fun c => !pyIsSpace c) = true

/-- Good separator text: free of backticks, so no match can begin inside. -/
def goodSep (sep : List Char) : Prop := '`' ∉ sep

/-- A well-formed changes document. -/
def wellFormedDoc (blocks : List (List Char × List Char × List Char × List Char))
    (fin : List Char) : Prop :=
  (∀ b ∈ blocks,
    goodSep b.1 ∧ goodTok b.2.1 ∧ goodLang b.2.2.1 ∧ goodContent b.2.2.2) ∧
  goodSep fin

/-- A document containing exactly one delimiter block in the grammar the
spec's claim describes: an opening marker line with the path, a fenced
content region, and a closing marker line — with no ```markdown fence
wrapped around the marker lines. -/
def claimGrammarDoc : List Char :=
  ("--- START OF MODIFIED FILE src/a.txt ---\n```\nhello\n```\n" ++
    "--- END OF MODIFIED FILE src/a.txt ---\n").toList

/-- Remove trailing empty entries from a list of lines. -/
def dropTrailingEmpty (L : List (List Char)) : List (List Char) :=
  (L.reverse.dropWhile List.isEmpty).reverse

/-- Split a text at newline characters (`"a\nb\n"` gives `["a", "b", ""]`);
used only to state per-line properties of cleaned output. -/
def splitNL : List Char → List (List Char)
  | [] => [[]]
  | c :: t =>
    if c = '\n' then [] :: splitNL t
    else
      match splitNL t with
      | [] => [[c]]
      | l :: ls => (c :: l) :: ls

/-- The raw text of the last block of `ms` whose stripped target path is `p`
and whose write succeeds, if any. -/
def lastSuccess (w : List Char → Bool) (ms : List (List Char × List Char))
    (p : List Char) : Option (List Char) :=
  ((ms.filter (fun m => pyStrip m.1 == p && w (pyStrip m.1))).getLast?).map (·.2)

/-! ## Generic list lemmas -/

theorem firstSome_cons_some {α β : Type} {f : α → Option β} {a : α} {l : List α} {b : β}
    (h : f a = some b) : firstSome f (a :: l) = some b := by
  simp [firstSome, h]

theorem firstSome_cons_none {α β : Type} {f : α → Option β} {a : α} {l : List α}
    (h : f a = none) : firstSome f (a :: l) = firstSome f l := by
  simp [firstSome, h]

theorem firstSome_eq_none {α β : Type} {f : α → Option β} {l : List α}
    (h : ∀ a ∈ l, f a = none) : firstSome f l = none := by
  induction l with
  | nil => rfl
  | cons a as ih =>
    rw [firstSome_cons_none (h a (List.mem_cons_self a as))]
    exact ih fun x hx => h x (List.mem_cons_of_mem a hx)

theorem firstSome_append_none {α β : Type} {f : α → Option β} {l₁ l₂ : List α}
    (h : ∀ a ∈ l₁, f a = none) : firstSome f (l₁ ++ l₂) = firstSome f l₂ := by
  induction l₁ with
  | nil => rfl
  | cons a as ih =>
    rw [List.cons_append, firstSome_cons_none (h a (List.mem_cons_self a as))]
    exact ih fun x hx => h x (List.mem_cons_of_mem a hx)

theorem firstSome_some_mem {α β : Type} {f : α → Option β} {l : List α} {b : β}
    (h : firstSome f l = some b) : ∃ a ∈ l, f a = some b := by
  induction l with
  | nil => simp [firstSome] at h
  | cons a as ih =>
    cases hfa : f a with
    | some b2 =>
      rw [firstSome_cons_some hfa] at h
      exact ⟨a, List.mem_cons_self a as, by rw [hfa, h]⟩
    | none =>
      rw [firstSome_cons_none hfa] at h
      obtain ⟨x, hx, hfx⟩ := ih h
      exact ⟨x, List.mem_cons_of_mem a hx, hfx⟩

/-! ## Lemmas about the stripping helpers -/

theorem rstripP_getLast_not {p : Char → Bool} {s : List Char} {c : Char}
    (h : (rstripP p s).getLast? = some c) : p c = false := by
  unfold rstripP at h
  rw [List.getLast?_reverse] at h
  have h2 := List.head?_dropWhile_not p s.reverse
  rw [h] at h2
  exact h2

theorem rstripP_append_single {p : Char → Bool} {s : List Char} {c : Char}
    (hc : p c = true) : rstripP p (s ++ [c]) = rstripP p s := by
  unfold rstripP
  rw [List.reverse_append]
  simp [List.dropWhile_cons, hc]

theorem rstripP_eq_self_of_getLast {p : Char → Bool} {s : List Char} {c : Char}
    (h : s.getLast? = some c) (hc : p c = false) : rstripP p s = s := by
  have key : s.reverse.dropWhile p = s.reverse := by
    cases hrev : s.reverse with
    | nil => rfl
    | cons x xs =>
      have hx : x = c := by
        rw [← List.head?_reverse, hrev] at h
        simpa using h
      exact List.dropWhile_cons_of_neg (by simp [hx, hc])
  unfold rstripP
  rw [key, List.reverse_reverse]

theorem mem_rstripP {p : Char → Bool} {s : List Char} {c : Char}
    (h : c ∈ rstripP p s) : c ∈ s := by
  unfold rstripP at h
  rw [List.mem_reverse] at h
  have h2 := (List.dropWhile_sublist (l := s.reverse) p).subset h
  rwa [List.mem_reverse] at h2

theorem rstrip_idem (s : List Char) : rstrip (rstrip s) = rstrip s := by
  cases h : (rstrip s).getLast? with
  | none => rw [List.getLast?_eq_none_iff] at h; rw [h]; rfl
  | some c =>
    exact rstripP_eq_self_of_getLast h (rstripP_getLast_not (p := pyIsSpace) h)

theorem ne_newline_of_not_space {c : Char} (h : pyIsSpace c = false) :
    (c == '\n') = false := by
  cases hc : c == '\n' with
  | false => rfl
  | true =>
    rw [beq_iff_eq] at hc
    subst hc
    simp [pyIsSpace] at h

theorem ne_of_not_boundary {c : Char} {b : Char} (hb : isLineBoundary b = true)
    (h : isLineBoundary c = false) : c ≠ b := by
  intro he
  rw [he, hb] at h
  cases h

/-! ## Lemmas about joinNL -/

theorem joinNL_cons_cons (a b : List Char) (L : List (List Char)) :
    joinNL (a :: b :: L) = a ++ '\n' :: joinNL (b :: L) := rfl

theorem if_cond_false {α : Sort u} {b : Bool} (h : b = false) (x y : α) :
    (if b = true then x else y) = y := by
  rw [h]
  simp

theorem joinNL_concat (L : List (List Char)) (l : List Char) :
    joinNL (L ++ [l]) = if L.isEmpty then l else joinNL L ++ '\n' :: l := by
  induction L with
  | nil => rfl
  | cons a L ih =>
    cases L with
    | nil => rfl
    | cons b L2 =>
      have e1 : (a :: b :: L2) ++ [l] = a :: b :: (L2 ++ [l]) := by simp
      rw [e1, joinNL_cons_cons]
      rw [show b :: (L2 ++ [l]) = (b :: L2) ++ [l] from rfl, ih]
      simp [joinNL_cons_cons]

theorem mem_joinNL {c : Char} {L : List (List Char)} (h : c ∈ joinNL L) :
    c = '\n' ∨ ∃ l ∈ L, c ∈ l := by
  induction L with
  | nil => simp [joinNL] at h
  | cons a L ih =>
    cases L with
    | nil =>
      right
      exact ⟨a, List.mem_cons_self a [], by simpa [joinNL] using h⟩
    | cons b L2 =>
      rw [joinNL_cons_cons] at h
      rcases List.mem_append.1 h with h1 | h2
      · exact Or.inr ⟨a, List.mem_cons_self a _, h1⟩
      · rcases List.mem_cons.1 h2 with rfl | h3
        · exact Or.inl rfl
        · rcases ih h3 with h4 | ⟨l, hl, hcl⟩
          · exact Or.inl h4
          · exact Or.inr ⟨l, List.mem_cons_of_mem a hl, hcl⟩

theorem getLast?_append_of_ne_nil {l t : List Char} (ht : t ≠ []) :
    (l ++ t).getLast? = t.getLast? := by
  cases hg : t.getLast? with
  | none => exact absurd (List.getLast?_eq_none_iff.1 hg) ht
  | some c => rw [List.getLast?_append]; simp [hg]

theorem getLast?_joinNL {M : List (List Char)} {l : List Char}
    (hM : M.getLast? = some l) (hl : l ≠ []) :
    (joinNL M).getLast? = l.getLast? := by
  induction M with
  | nil => simp at hM
  | cons a M ih =>
    cases M with
    | nil =>
      simp only [List.getLast?_singleton, Option.some.injEq] at hM
      subst hM
      rfl
    | cons b M2 =>
      rw [List.getLast?_cons_cons] at hM
      have hrec := ih hM
      have hne : joinNL (b :: M2) ≠ [] := by
        intro he
        rw [he] at hrec
        cases hg : l.getLast? with
        | none => exact hl (List.getLast?_eq_none_iff.1 hg)
        | some c => rw [hg] at hrec; cases hrec
      rw [joinNL_cons_cons]
      have : '\n' :: joinNL (b :: M2) = ['\n'] ++ joinNL (b :: M2) := rfl
      rw [this, getLast?_append_of_ne_nil (by simp [hne]),
        getLast?_append_of_ne_nil hne]
      exact hrec

/-! ## Lemmas about dropTrailingEmpty -/

theorem mem_dropTrailingEmpty {L : List (List Char)} {l : List Char}
    (h : l ∈ dropTrailingEmpty L) : l ∈ L := by
  unfold dropTrailingEmpty at h
  rw [List.mem_reverse] at h
  have h2 := (List.dropWhile_sublist (l := L.reverse) List.isEmpty).subset h
  rwa [List.mem_reverse] at h2

theorem dropTrailingEmpty_concat_empty (L : List (List Char)) :
    dropTrailingEmpty (L ++ [[]]) = dropTrailingEmpty L := by
  unfold dropTrailingEmpty
  rw [List.reverse_append]
  rfl

theorem dropTrailingEmpty_concat_ne {L : List (List Char)} {l : List Char}
    (hl : l ≠ []) : dropTrailingEmpty (L ++ [l]) = L ++ [l] := by
  unfold dropTrailingEmpty
  rw [List.reverse_append]
  have : List.isEmpty l = false := by
    cases l with
    | nil => exact absurd rfl hl
    | cons c t => rfl
  simp [List.dropWhile_cons, this]

theorem dropTrailingEmpty_eq_self {L : List (List Char)} {l : List Char}
    (hL : L.getLast? = some l) (hl : l ≠ []) : dropTrailingEmpty L = L := by
  have hne : L ≠ [] := by intro he; rw [he] at hL; cases hL
  have hdec := List.dropLast_append_getLast hne
  have hlast : L.getLast hne = l := by
    rw [List.getLast?_eq_getLast L hne] at hL
    exact Option.some.inj hL
  rw [← hdec, hlast, dropTrailingEmpty_concat_ne hl]

theorem getLast?_dropTrailingEmpty_ne_nil {L : List (List Char)} {l : List Char}
    (h : (dropTrailingEmpty L).getLast? = some l) : l ≠ [] := by
  unfold dropTrailingEmpty at h
  rw [List.getLast?_reverse] at h
  have h2 := List.head?_dropWhile_not List.isEmpty L.reverse
  rw [h] at h2
  intro he
  rw [he] at h2
  cases h2

/-! ## rstripNL of a join of clean lines -/

theorem rstripNL_append_newline (s : List Char) :
    rstripNL (s ++ ['\n']) = rstripNL s :=
  rstripP_append_single (by simp)

theorem rstripNL_joinNL {L : List (List Char)}
    (h : ∀ l ∈ L, rstrip l = l ∧ '\n' ∉ l) :
    rstripNL (joinNL L) = joinNL (dropTrailingEmpty L) := by
  induction L using List.reverseRecOn with
  | nil => rfl
  | append_singleton L l ih =>
    by_cases hl : l = []
    · subst hl
      rw [joinNL_concat, dropTrailingEmpty_concat_empty]
      cases hLe : L.isEmpty with
      | true =>
        rw [List.isEmpty_iff] at hLe
        subst hLe
        rfl
      | false =>
        rw [if_cond_false rfl]
        have : joinNL L ++ '\n' :: [] = joinNL L ++ ['\n'] := rfl
        rw [this, rstripNL_append_newline]
        exact ih fun x hx => h x (List.mem_append_left _ hx)
    · have hprops := h l (List.mem_append_right _ (List.mem_cons_self l []))
      cases hg : l.getLast? with
      | none => exact absurd (List.getLast?_eq_none_iff.1 hg) hl
      | some c =>
        have hcs : pyIsSpace c = false := by
          have := hprops.1
          unfold rstrip at this
          exact rstripP_getLast_not (by rw [this]; exact hg)
        have hcn : (c == '\n') = false := ne_newline_of_not_space hcs
        have hjoin : (joinNL (L ++ [l])).getLast? = some c := by
          rw [joinNL_concat]
          cases hLe : L.isEmpty with
          | true => simpa using hg
          | false =>
            rw [if_cond_false rfl]
            have h1 : joinNL L ++ '\n' :: l = (joinNL L ++ ['\n']) ++ l := by
              simp
            rw [h1, getLast?_append_of_ne_nil hl]
            exact hg
        rw [dropTrailingEmpty_concat_ne hl]
        exact rstripP_eq_self_of_getLast hjoin hcn

/-! ## Lemmas about splitlines and replaceCRLF -/

theorem splitlinesAux_chars :
    ∀ s acc, ∀ l ∈ splitlinesAux s acc, ∀ x ∈ l,
      x ∈ acc ∨ (x ∈ s ∧ isLineBoundary x = false) := by
  intro s acc
  induction s, acc using splitlinesAux.induct with
  | case1 acc =>
    intro l hl x hx
    simp only [splitlinesAux, List.mem_singleton] at hl
    subst hl
    exact Or.inl (List.mem_reverse.1 hx)
  | case2 c acc hc =>
    intro l hl x hx
    simp only [splitlinesAux, if_pos hc, List.mem_singleton] at hl
    subst hl
    exact Or.inl (List.mem_reverse.1 hx)
  | case3 c acc hc =>
    intro l hl x hx
    simp only [splitlinesAux, if_neg hc, List.mem_singleton] at hl
    subst hl
    rcases List.mem_cons.1 (List.mem_reverse.1 hx) with rfl | hxa
    · exact Or.inr ⟨List.mem_cons_self _ _, Bool.of_not_eq_true hc⟩
    · exact Or.inl hxa
  | case4 c c2 rest acc hp he =>
    intro l hl x hx
    simp only [splitlinesAux, if_pos hp, if_pos he, List.mem_singleton] at hl
    subst hl
    exact Or.inl (List.mem_reverse.1 hx)
  | case5 c c2 rest acc hp he ih =>
    intro l hl x hx
    simp only [splitlinesAux, if_pos hp, if_neg he] at hl
    rcases List.mem_cons.1 hl with rfl | hl2
    · exact Or.inl (List.mem_reverse.1 hx)
    · rcases ih l hl2 x hx with h1 | ⟨h2, h3⟩
      · simp at h1
      · exact Or.inr ⟨by simp [h2], h3⟩
  | case6 c c2 rest acc hp hc ih =>
    intro l hl x hx
    simp only [splitlinesAux, if_neg hp, if_pos hc] at hl
    rcases List.mem_cons.1 hl with rfl | hl2
    · exact Or.inl (List.mem_reverse.1 hx)
    · rcases ih l hl2 x hx with h1 | ⟨h2, h3⟩
      · simp at h1
      · exact Or.inr ⟨by simp [List.mem_cons.1 h2], h3⟩
  | case7 c c2 rest acc hp hc ih =>
    intro l hl x hx
    simp only [splitlinesAux, if_neg hp, if_neg hc] at hl
    rcases ih l hl x hx with h1 | ⟨h2, h3⟩
    · rcases List.mem_cons.1 h1 with rfl | hxa
      · exact Or.inr ⟨List.mem_cons_self _ _, Bool.of_not_eq_true hc⟩
      · exact Or.inl hxa
    · exact Or.inr ⟨by simp [List.mem_cons.1 h2], h3⟩

theorem splitlines_chars {s l : List Char} (hl : l ∈ splitlines s) :
    ∀ x ∈ l, x ∈ s ∧ isLineBoundary x = false := by
  intro x hx
  unfold splitlines at hl
  by_cases hse : s.isEmpty
  · rw [if_pos hse] at hl
    simp at hl
  · rw [if_neg hse] at hl
    rcases splitlinesAux_chars s [] l hl x hx with h1 | h2
    · simp at h1
    · exact h2

theorem splitlinesAux_line :
    ∀ (m : List Char), (∀ c ∈ m, isLineBoundary c = false) →
      ∀ rest acc, splitlinesAux (m ++ '\n' :: rest) acc =
        if rest.isEmpty then [acc.reverse ++ m]
        else (acc.reverse ++ m) :: splitlinesAux rest [] := by
  intro m
  induction m with
  | nil =>
    intro _ rest acc
    cases rest with
    | nil => simp [splitlinesAux, isLineBoundary]
    | cons r rs =>
      simp only [List.nil_append, splitlinesAux]
      rw [if_neg (by intro hp; exact absurd hp.1 (by decide)),
        if_pos (show isLineBoundary '\n' = true by decide)]
      simp
  | cons x m2 ih =>
    intro hm rest acc
    have hx : isLineBoundary x = false := hm x (List.mem_cons_self x m2)
    have hxr : x ≠ '\r' := ne_of_not_boundary (by decide) hx
    obtain ⟨hd, tl, he⟩ : ∃ hd tl, m2 ++ '\n' :: rest = hd :: tl := by
      cases m2 with
      | nil => exact ⟨'\n', rest, rfl⟩
      | cons a b => exact ⟨a, b ++ '\n' :: rest, rfl⟩
    rw [List.cons_append, he]
    simp only [splitlinesAux]
    rw [if_neg (fun hp => hxr hp.1), if_cond_false hx, ← he,
      ih (fun c hc => hm c (List.mem_cons_of_mem x hc)) rest (x :: acc)]
    cases rest.isEmpty with
    | true => simp
    | false => simp

theorem splitlines_joinNL :
    ∀ (M : List (List Char)), M ≠ [] →
      (∀ l ∈ M, ∀ c ∈ l, isLineBoundary c = false) →
      splitlines (joinNL M ++ ['\n']) = M := by
  intro M
  induction M with
  | nil => intro hM _; exact absurd rfl hM
  | cons m M2 ih =>
    intro _ hbf
    cases M2 with
    | nil =>
      have h1 : joinNL [m] ++ ['\n'] = m ++ '\n' :: [] := by simp [joinNL]
      rw [h1]
      unfold splitlines
      rw [if_cond_false (by simp), splitlinesAux_line m
        (hbf m (List.mem_cons_self m [])) [] []]
      simp
    | cons m2 M3 =>
      have h1 : joinNL (m :: m2 :: M3) ++ ['\n'] =
          m ++ '\n' :: (joinNL (m2 :: M3) ++ ['\n']) := by
        rw [joinNL_cons_cons]
        simp
      rw [h1]
      unfold splitlines
      rw [if_cond_false (by simp), splitlinesAux_line m
        (hbf m (List.mem_cons_self m _)) _ []]
      rw [if_cond_false (by simp)]
      have ih2 := ih (by simp) (fun l hl => hbf l (List.mem_cons_of_mem m hl))
      unfold splitlines at ih2
      rw [if_cond_false (by simp)] at ih2
      rw [ih2]
      simp

theorem replaceCRLF_eq_self : ∀ {t : List Char}, '\r' ∉ t → replaceCRLF t = t := by
  intro t
  induction t with
  | nil => intro _; rfl
  | cons c rest ih =>
    intro h
    cases rest with
    | nil => rfl
    | cons c2 rest2 =>
      have hc : ¬(c = '\r' ∧ c2 = '\n') := by
        intro hp
        exact h (by rw [hp.1]; exact List.mem_cons_self _ _)
      simp only [replaceCRLF]
      rw [if_neg hc, ih (fun hm => h (List.mem_cons_of_mem _ hm))]

theorem map_eq_self_of {β : Type} {L : List β} {f : β → β} (h : ∀ l ∈ L, f l = l) :
    L.map f = L := by
  induction L with
  | nil => rfl
  | cons a L ih =>
    rw [List.map_cons, h a (List.mem_cons_self a L),
      ih (fun x hx => h x (List.mem_cons_of_mem a hx))]

/-! ## The normal form of cleaned text -/

/-- Every output of `clean_content` is a newline-join of clean lines followed
by one final newline: each line is already stripped of trailing whitespace,
contains no line-boundary character, and the last line (if any) is nonempty. -/
theorem clean_content_normal (s : List Char) :
    ∃ M, clean_content s = joinNL M ++ ['\n'] ∧
      (∀ l ∈ M, rstrip l = l) ∧
      (∀ l ∈ M, ∀ c ∈ l, isLineBoundary c = false) ∧
      (∀ l, M.getLast? = some l → l ≠ []) := by
  have hLprops : ∀ l ∈ (splitlines (replaceCRLF (subTrailingFence s))).map rstrip,
      rstrip l = l ∧ ∀ c ∈ l, isLineBoundary c = false := by
    intro l hl
    obtain ⟨piece, hpiece, rfl⟩ := List.mem_map.1 hl
    refine ⟨rstrip_idem piece, fun c hc => ?_⟩
    exact (splitlines_chars hpiece c (mem_rstripP hc)).2
  refine ⟨dropTrailingEmpty ((splitlines (replaceCRLF (subTrailingFence s))).map rstrip),
    ?_, ?_, ?_, ?_⟩
  · have h1 : clean_content s =
        rstripNL (joinNL ((splitlines (replaceCRLF (subTrailingFence s))).map rstrip))
          ++ ['\n'] := rfl
    rw [h1, rstripNL_joinNL (fun l hl => ⟨(hLprops l hl).1, fun hmem => by
      have := (hLprops l hl).2 '\n' hmem
      simp [isLineBoundary] at this⟩)]
  · exact fun l hl => (hLprops l (mem_dropTrailingEmpty hl)).1
  · exact fun l hl => (hLprops l (mem_dropTrailingEmpty hl)).2
  · exact fun l hl => getLast?_dropTrailingEmpty_ne_nil hl

/-! ## Claim C1: idempotence of clean_content -/

/-- Claim C1 is false as stated: `clean_content` is not idempotent.  On the
input `"``` ```"` one application yields `"```\n"` (the fence-stripping step
removes only the last trailing fence), and a second application strips the
remaining trailing fence, yielding `"\n"`. -/
theorem clean_content_not_idempotent :
    clean_content (clean_content "``` ```".toList) ≠
      clean_content "``` ```".toList := by
  decide

/-- Claim C1 (amended): `clean_content` is idempotent on every input whose
cleaned result is not further changed by the trailing-fence-stripping step,
i.e. whenever `clean_content s` does not end in a trailing triple-backtick
fence.  (The counterexample above shows the restriction is necessary: a second
application can strip one more trailing fence.) -/
theorem clean_content_idempotent_of_no_trailing_fence (s : List Char)
    (h : subTrailingFence (clean_content s) = clean_content s) :
    clean_content (clean_content s) = clean_content s := by
  obtain ⟨M, hM, hstr, hbf, hlast⟩ := clean_content_normal s
  rw [hM] at h ⊢
  have hnoCR : '\r' ∉ joinNL M ++ ['\n'] := by
    intro hmem
    rcases List.mem_append.1 hmem with h1 | h2
    · rcases mem_joinNL h1 with h3 | ⟨l, hl, hcl⟩
      · exact absurd h3 (by decide)
      · have hb := hbf l hl '\r' hcl
        simp [isLineBoundary] at hb
    · simp at h2
  cases M with
  | nil =>
    simp only [joinNL, List.nil_append]
    decide
  | cons m M2 =>
    have h1 : clean_content (joinNL (m :: M2) ++ ['\n']) =
        rstripNL (joinNL ((splitlines (replaceCRLF
          (subTrailingFence (joinNL (m :: M2) ++ ['\n'])))).map rstrip)) ++ ['\n'] := rfl
    rw [h1, h, replaceCRLF_eq_self hnoCR,
      splitlines_joinNL (m :: M2) (by simp) hbf, map_eq_self_of hstr]
    congr 1
    cases hg : (m :: M2).getLast? with
    | none => simp at hg
    | some l =>
      have hlne := hlast l hg
      cases hgl : l.getLast? with
      | none => exact absurd (List.getLast?_eq_none_iff.1 hgl) hlne
      | some c =>
        have hlmem : l ∈ m :: M2 := by
          have hne : (m :: M2) ≠ [] := by simp
          rw [List.getLast?_eq_getLast _ hne] at hg
          rw [← Option.some.inj hg]
          exact List.getLast_mem hne
        have hstrl : rstrip l = l := hstr l hlmem
        have hcs : pyIsSpace c = false := by
          refine rstripP_getLast_not (p := pyIsSpace) (s := l) ?_
          rw [show rstripP pyIsSpace l = l from hstrl]
          exact hgl
        refine rstripP_eq_self_of_getLast ?_ (ne_newline_of_not_space hcs)
        rw [getLast?_joinNL hg hlne]
        exact hgl

/-! ## Claim C4: the cleaned text ends in exactly one newline -/

/-- Claim C4: for every input string, `clean_content` returns text that ends
with exactly one trailing newline: the result is `z ++ ['\n']` where `z` does
not itself end in a newline. -/
theorem clean_content_single_trailing_newline (s : List Char) :
    ∃ z, clean_content s = z ++ ['\n'] ∧ z.getLast? ≠ some '\n' := by
  refine ⟨rstripNL (joinNL ((splitlines (replaceCRLF (subTrailingFence s))).map rstrip)),
    rfl, ?_⟩
  intro h
  unfold rstripNL at h
  have h2 := rstripP_getLast_not h
  simp at h2

/-! ## Claims C5 and C10: shape of the cleaned text -/

theorem splitNL_cons_newline (t : List Char) :
    splitNL ('\n' :: t) = [] :: splitNL t := by
  simp [splitNL]

theorem splitNL_no_newline : ∀ {m : List Char}, '\n' ∉ m → splitNL m = [m] := by
  intro m
  induction m with
  | nil => intro _; rfl
  | cons c m2 ih =>
    intro h
    have hc : ¬(c = '\n') := fun he => h (he ▸ List.mem_cons_self _ _)
    simp only [splitNL, if_neg hc, ih (fun hm => h (List.mem_cons_of_mem c hm))]

theorem splitNL_append_line : ∀ {m : List Char}, '\n' ∉ m →
    ∀ t, splitNL (m ++ '\n' :: t) = m :: splitNL t := by
  intro m
  induction m with
  | nil => intro _ t; exact splitNL_cons_newline t
  | cons c m2 ih =>
    intro h t
    have hc : ¬(c = '\n') := fun he => h (he ▸ List.mem_cons_self _ _)
    rw [List.cons_append]
    simp only [splitNL, if_neg hc,
      ih (fun hm => h (List.mem_cons_of_mem c hm)) t]

theorem splitNL_joinNL :
    ∀ (M : List (List Char)), M ≠ [] → (∀ l ∈ M, '\n' ∉ l) →
      splitNL (joinNL M) = M := by
  intro M
  induction M with
  | nil => intro hM _; exact absurd rfl hM
  | cons m M2 ih =>
    intro _ hnl
    cases M2 with
    | nil => exact splitNL_no_newline (hnl m (List.mem_cons_self m []))
    | cons m2 M3 =>
      rw [joinNL_cons_cons,
        splitNL_append_line (hnl m (List.mem_cons_self m _)) _,
        ih (by simp) (fun l hl => hnl l (List.mem_cons_of_mem m hl))]

theorem newline_not_mem_of_boundary_free {l : List Char}
    (h : ∀ c ∈ l, isLineBoundary c = false) : '\n' ∉ l := by
  intro hmem
  have hb := h '\n' hmem
  simp [isLineBoundary] at hb

theorem no_cr_join {M : List (List Char)}
    (hbf : ∀ l ∈ M, ∀ c ∈ l, isLineBoundary c = false) :
    '\r' ∉ joinNL M ++ ['\n'] := by
  intro hmem
  rcases List.mem_append.1 hmem with h1 | h2
  · rcases mem_joinNL h1 with h3 | ⟨l, hl, hcl⟩
    · exact absurd h3 (by decide)
    · have hb := hbf l hl '\r' hcl
      simp [isLineBoundary] at hb
  · simp at h2

/-- Claim C5: the cleaned text contains no carriage-return character, no line
of it ends in trailing whitespace (each piece of its newline-split is fixed by
`rstrip`), and on the spec's scenario input the cleaned text is exactly
`"hello\n"`. -/
theorem clean_content_lines_clean (s : List Char) :
    '\r' ∉ clean_content s ∧
    (∀ l ∈ splitNL (clean_content s), rstrip l = l) ∧
    clean_content "hello   \n\n\n".toList = "hello\n".toList := by
  obtain ⟨M, hM, hstr, hbf, _⟩ := clean_content_normal s
  refine ⟨by rw [hM]; exact no_cr_join hbf, ?_, by decide⟩
  rw [hM]
  cases M with
  | nil =>
    intro l hl
    simp only [joinNL, List.nil_append] at hl
    rw [show ['\n'] = [] ++ '\n' :: [] from rfl, splitNL_append_line (by simp) []] at hl
    rcases List.mem_cons.1 hl with rfl | hl2
    · rfl
    · simp only [splitNL, List.mem_singleton] at hl2
      subst hl2
      rfl
  | cons m M2 =>
    have hjoin : joinNL (m :: M2) ++ ['\n'] = joinNL ((m :: M2) ++ [[]]) := by
      rw [joinNL_concat]
      rfl
    rw [hjoin, splitNL_joinNL ((m :: M2) ++ [[]]) (by simp) ?hnl]
    case hnl =>
      intro l hl
      rcases List.mem_append.1 hl with h1 | h2
      · exact newline_not_mem_of_boundary_free (hbf l h1)
      · simp only [List.mem_singleton] at h2
        subst h2
        simp
    intro l hl
    rcases List.mem_append.1 hl with h1 | h2
    · exact hstr l h1
    · simp only [List.mem_singleton] at h2
      subst h2
      rfl

theorem rstripP_eq_nil_of_all {p : Char → Bool} {s : List Char}
    (h : ∀ c ∈ s, p c = true) : rstripP p s = [] := by
  unfold rstripP
  rw [List.dropWhile_eq_nil_iff.2 (fun x hx => h x (List.mem_reverse.1 hx))]
  rfl

theorem mem_replaceCRLF : ∀ {s : List Char} {c : Char},
    c ∈ replaceCRLF s → c ∈ s ∨ c = '\n' := by
  intro s
  induction s using replaceCRLF.induct with
  | case1 =>
    intro c hc
    simp [replaceCRLF] at hc
  | case2 c0 =>
    intro c hc
    simp only [replaceCRLF, List.mem_singleton] at hc
    exact Or.inl (hc ▸ List.mem_cons_self _ _)
  | case3 c0 c2 rest hp ih =>
    intro c hc
    simp only [replaceCRLF, if_pos hp] at hc
    rcases List.mem_cons.1 hc with rfl | h2
    · exact Or.inr rfl
    · rcases ih h2 with h3 | h4
      · exact Or.inl (by simp [h3])
      · exact Or.inr h4
  | case4 c0 c2 rest hp ih =>
    intro c hc
    simp only [replaceCRLF, if_neg hp] at hc
    rcases List.mem_cons.1 hc with rfl | h2
    · exact Or.inl (List.mem_cons_self _ _)
    · rcases ih h2 with h3 | h4
      · exact Or.inl (List.mem_cons_of_mem _ h3)
      · exact Or.inr h4

theorem dropTrailingEmpty_eq_nil {L : List (List Char)}
    (h : ∀ l ∈ L, l = []) : dropTrailingEmpty L = [] := by
  unfold dropTrailingEmpty
  rw [List.dropWhile_eq_nil_iff.2 (fun x hx => by
    rw [h x (List.mem_reverse.1 hx)]; rfl)]
  rfl

/-- Claim C10: `clean_content` always returns a nonempty string; on the empty
string, on any all-whitespace string, and on a lone triple-backtick fence it
returns exactly `"\n"`, so an empty fenced block is synced as a file holding a
single newline, never an empty file. -/
theorem clean_content_never_empty :
    (∀ s, clean_content s ≠ []) ∧
    (∀ s, (∀ c ∈ s, pyIsSpace c = true) → clean_content s = ['\n']) ∧
    clean_content [] = ['\n'] ∧
    clean_content "```".toList = ['\n'] := by
  refine ⟨?_, ?_, by decide, by decide⟩
  · intro s
    exact List.append_ne_nil_of_right_ne_nil _ (by simp)
  · intro s hsp
    have hfix : subTrailingFence s = s := by
      unfold subTrailingFence
      rw [show rstrip s = [] from (rstripP_eq_nil_of_all hsp)]
      rw [if_neg (by decide)]
    have hsp2 : ∀ c ∈ replaceCRLF s, pyIsSpace c = true := by
      intro c hc
      rcases mem_replaceCRLF hc with h1 | rfl
      · exact hsp c h1
      · decide
    have hempty : ∀ l ∈ (splitlines (replaceCRLF s)).map rstrip, l = [] := by
      intro l hl
      obtain ⟨piece, hpiece, rfl⟩ := List.mem_map.1 hl
      exact rstripP_eq_nil_of_all
        (fun c hc => hsp2 c (splitlines_chars hpiece c hc).1)
    have h1 : clean_content s =
        rstripNL (joinNL ((splitlines (replaceCRLF (subTrailingFence s))).map rstrip))
          ++ ['\n'] := rfl
    rw [h1, hfix,
      rstripNL_joinNL (fun l hl => by
        rw [hempty l hl]
        exact ⟨rfl, by simp⟩),
      dropTrailingEmpty_eq_nil hempty]
    rfl

/-! ## Claims C3, C6, C7, C9: the write loop and the surrounding tool -/

theorem getLast?_mem_list {α : Type} {l : List α} {a : α}
    (h : l.getLast? = some a) : a ∈ l := by
  have hne : l ≠ [] := by intro he; rw [he] at h; cases h
  rw [List.getLast?_eq_getLast _ hne] at h
  rw [← Option.some.inj h]
  exact List.getLast_mem hne

theorem getLast?_cons_or {α : Type} (a : α) (l : List α) :
    (a :: l).getLast? = l.getLast?.or (some a) := by
  cases l with
  | nil => rfl
  | cons b t =>
    rw [List.getLast?_cons_cons]
    cases hg : (b :: t).getLast? with
    | none => exact absurd (List.getLast?_eq_none_iff.1 hg) (by simp)
    | some x => rfl

theorem processMatches_counts (w : List Char → Bool) :
    ∀ (ms : List (List Char × List Char)) (fs : FS),
      (processMatches w ms fs).2.1 = ms.countP (fun m => w (pyStrip m.1)) ∧
      (processMatches w ms fs).2.2 = ms.countP (fun m => !w (pyStrip m.1)) := by
  intro ms
  induction ms with
  | nil => intro fs; exact ⟨rfl, rfl⟩
  | cons m rest ih =>
    intro fs
    simp only [processMatches]
    cases hw : w (pyStrip m.1) with
    | true =>
      rw [if_pos rfl]
      refine ⟨?_, ?_⟩
      · rw [(ih _).1, List.countP_cons, hw]
        simp
      · rw [(ih _).2, List.countP_cons, hw]
        simp
    | false =>
      rw [if_cond_false rfl]
      refine ⟨?_, ?_⟩
      · rw [(ih _).1, List.countP_cons, hw]
        simp
      · rw [(ih _).2, List.countP_cons, hw]
        simp

theorem lookup_fsSet (fs : FS) (p q v : List Char) :
    (fsSet fs p v).lookup q = if (q == p) = true then some v else fs.lookup q := by
  cases hq : q == p with
  | true => simp [fsSet, List.lookup, hq]
  | false => simp [fsSet, List.lookup, hq]

theorem lastSuccess_nil (w : List Char → Bool) (p : List Char) :
    lastSuccess w [] p = none := rfl

theorem processMatches_lookup (w : List Char → Bool) :
    ∀ (ms : List (List Char × List Char)) (fs : FS) (p : List Char),
      ((processMatches w ms fs).1).lookup p =
        match lastSuccess w ms p with
        | some raw => some (clean_content raw)
        | none => fs.lookup p := by
  intro ms
  induction ms with
  | nil => intro fs p; rfl
  | cons m rest ih =>
    intro fs p
    simp only [processMatches]
    have hfilter : (m :: rest).filter
        (fun x => pyStrip x.1 == p && w (pyStrip x.1)) =
        if (pyStrip m.1 == p && w (pyStrip m.1)) = true then
          m :: rest.filter (fun x => pyStrip x.1 == p && w (pyStrip x.1))
        else rest.filter (fun x => pyStrip x.1 == p && w (pyStrip x.1)) :=
      List.filter_cons
    cases hw : w (pyStrip m.1) with
    | true =>
      rw [if_pos rfl]
      rw [ih (fsSet fs (pyStrip m.1) (clean_content m.2)) p]
      by_cases hpq : pyStrip m.1 = p
      · have hcond : (pyStrip m.1 == p && w (pyStrip m.1)) = true := by
          rw [hw, beq_iff_eq.2 hpq]
          rfl
        cases hlr : lastSuccess w rest p with
        | some raw =>
          unfold lastSuccess at hlr ⊢
          rw [hfilter, if_pos hcond]
          obtain ⟨m2, hm2, hm2e⟩ := Option.map_eq_some'.1 hlr
          rw [getLast?_cons_or, hm2]
          simp [Option.or, hm2e]
        | none =>
          unfold lastSuccess at hlr ⊢
          rw [hfilter, if_pos hcond]
          have hfe : rest.filter (fun x => pyStrip x.1 == p && w (pyStrip x.1)) = [] := by
            cases hfl : rest.filter (fun x => pyStrip x.1 == p && w (pyStrip x.1)) with
            | nil => rfl
            | cons a b =>
              rw [hfl] at hlr
              cases hg : (a :: b).getLast? with
              | none => exact absurd (List.getLast?_eq_none_iff.1 hg) (by simp)
              | some x => rw [hg] at hlr; cases hlr
          rw [hfe, getLast?_cons_or, lookup_fsSet, if_pos (beq_iff_eq.2 hpq.symm)]
          rfl
      · have hcond : (pyStrip m.1 == p && w (pyStrip m.1)) = false := by
          have : (pyStrip m.1 == p) = false := beq_eq_false_iff_ne.2 hpq
          rw [this]
          rfl
        have hsame : lastSuccess w (m :: rest) p = lastSuccess w rest p := by
          unfold lastSuccess
          rw [hfilter, if_cond_false hcond]
        rw [hsame]
        cases hlr : lastSuccess w rest p with
        | some raw => rfl
        | none =>
          rw [lookup_fsSet, if_cond_false (beq_eq_false_iff_ne.2 (fun he => hpq he.symm))]
    | false =>
      rw [if_cond_false rfl]
      rw [ih fs p]
      have hcond : (pyStrip m.1 == p && w (pyStrip m.1)) = false := by
        rw [hw]
        simp
      have hsame : lastSuccess w (m :: rest) p = lastSuccess w rest p := by
        unfold lastSuccess
        rw [hfilter, if_cond_false hcond]
      rw [hsame]

/-- Claim C3: the write loop isolates per-block failures and returns the
aggregate counts: `processed_count` counts exactly the blocks whose write
succeeds, `error_count` counts exactly those whose write fails, the two add up
to the number of blocks (no block is skipped or aborts the loop), and a later
successful block still lands on disk: any path whose last successful write is
block `raw` ends up holding `clean_content raw`, regardless of earlier
failures. -/
theorem processMatches_isolates_failures (w : List Char → Bool)
    (ms : List (List Char × List Char)) (fs : FS) :
    (processMatches w ms fs).2.1 = ms.countP (fun m => w (pyStrip m.1)) ∧
    (processMatches w ms fs).2.2 = ms.countP (fun m => !w (pyStrip m.1)) ∧
    (processMatches w ms fs).2.1 + (processMatches w ms fs).2.2 = ms.length ∧
    (∀ p raw, lastSuccess w ms p = some raw →
      ((processMatches w ms fs).1).lookup p = some (clean_content raw)) := by
  obtain ⟨h1, h2⟩ := processMatches_counts w ms fs
  refine ⟨h1, h2, ?_, ?_⟩
  · rw [h1, h2]
    have h3 := List.length_eq_countP_add_countP (fun m => w (pyStrip m.1)) ms
    rw [h3]
    congr 1
    apply List.countP_congr
    intro m _
    cases w (pyStrip m.1) <;> simp
  · intro p raw hls
    rw [processMatches_lookup w ms fs p, hls]

/-- Claim C6: for a document in which the pattern scan finds zero blocks, the
sync operation returns an empty result: the filesystem is untouched and both
the processed and the error count are zero.  (The script then prints guidance
text and returns normally, so this outcome is informational, not an error.) -/
theorem sync_no_matches (w : List Char → Bool) (doc : List Char) (fs : FS)
    (h : findAll doc = []) : sync_changes_to_src w doc fs = (fs, 0, 0) := by
  unfold sync_changes_to_src
  rw [h]
  rfl

/-- Claim C7: last write wins.  If every write of the run succeeds and the
last parsed block whose stripped target path equals `p` is `m0`, then after
the sync the file at `p` holds exactly the cleaned text of `m0` — in
particular, when several blocks target the same path, the one latest in
document order determines the final content. -/
theorem sync_last_write_wins (w : List Char → Bool) (doc : List Char) (fs : FS)
    (p : List Char) (m0 : List Char × List Char)
    (hall : ∀ m ∈ findAll doc, w (pyStrip m.1) = true)
    (hlast : ((findAll doc).filter (fun m => pyStrip m.1 == p)).getLast? = some m0) :
    ((sync_changes_to_src w doc fs).1).lookup p = some (clean_content m0.2) := by
  have hne : (findAll doc).isEmpty = false := by
    cases hfa : findAll doc with
    | nil => rw [hfa] at hlast; cases hlast
    | cons a b => rfl
  unfold sync_changes_to_src
  rw [if_cond_false hne, processMatches_lookup]
  have hsame : lastSuccess w (findAll doc) p = some m0.2 := by
    unfold lastSuccess
    have hfe : (findAll doc).filter (fun m => pyStrip m.1 == p && w (pyStrip m.1)) =
        (findAll doc).filter (fun m => pyStrip m.1 == p) := by
      apply List.filter_congr
      intro m hm
      rw [hall m hm]
      simp
    rw [hfe, hlast]
    rfl
  rw [hsame]

/-- Claim C9: the tool prompts before any write, and a declining response
cancels the run: whenever the stripped, lowercased response differs from
`"y"`, `main` returns the `cancelled` outcome — a normal return, which in the
script exits with status 0, not an error — and the filesystem is untouched. -/
theorem main_cancel_on_decline (response doc : List Char)
    (w : List Char → Bool) (fs : FS)
    (h : pyLower (pyStrip response) ≠ ['y']) :
    mainModel true response w doc fs = (MainOutcome.cancelled, fs) := by
  unfold mainModel
  rw [if_neg (by simp), if_pos h]

/-! ## Claim C8: target paths always begin with the source root -/

theorem take_eq_take_takeWhile {p : Char → Bool} :
    ∀ (l : List Char) (n : Nat), n ≤ (l.takeWhile p).length →
      l.take n = (l.takeWhile p).take n := by
  intro l
  induction l with
  | nil => intro n _; rfl
  | cons c t ih =>
    intro n hn
    cases hp : p c with
    | false =>
      rw [List.takeWhile_cons_of_neg (by rw [hp]; simp)] at hn
      have h0 : n = 0 := by simpa using hn
      subst h0
      rfl
    | true =>
      rw [List.takeWhile_cons_of_pos hp] at hn ⊢
      cases n with
      | zero => rfl
      | succ k =>
        rw [List.take_succ_cons, List.take_succ_cons,
          ih k (by simpa using hn)]

theorem runElems_g1 :
    ∀ (es : List Elem) (s : List Char) (g1 g2 : Option (List Char))
      (r : List Char), runElems es s = some (g1, g2, r) →
      ∀ gp, g1 = some gp →
        ∃ tok, gp = srcSlash ++ tok ∧ tok ≠ [] ∧
          ∀ c ∈ tok, pyIsSpace c = false := by
  intro es
  induction es with
  | nil =>
    intro s g1 g2 r h gp hg1
    simp only [runElems, Option.some.injEq, Prod.mk.injEq] at h
    rw [← h.1] at hg1
    cases hg1
  | cons e es ih =>
    cases e with
    | lit cs =>
      intro s g1 g2 r h gp hg1
      simp only [runElems] at h
      split at h
      · exact ih _ _ _ _ h gp hg1
      · cases h
    | wsStar =>
      intro s g1 g2 r h gp hg1
      obtain ⟨n, _, hf⟩ := firstSome_some_mem h
      exact ih _ _ _ _ hf gp hg1
    | optLang =>
      intro s g1 g2 r h gp hg1
      obtain ⟨n, _, hf⟩ := firstSome_some_mem h
      exact ih _ _ _ _ hf gp hg1
    | nlFreeStar =>
      intro s g1 g2 r h gp hg1
      obtain ⟨n, _, hf⟩ := firstSome_some_mem h
      exact ih _ _ _ _ hf gp hg1
    | contentGroup =>
      intro s g1 g2 r h gp hg1
      obtain ⟨n, _, hf⟩ := firstSome_some_mem h
      obtain ⟨r2, hr2, hr2e⟩ := Option.map_eq_some'.1 hf
      have hg1r2 : r2.1 = g1 := congrArg Prod.fst hr2e
      exact ih _ _ _ _ hr2 gp (hg1r2.trans hg1)
    | pathGroup =>
      intro s g1 g2 r h gp hg1
      simp only [runElems] at h
      split at h
      · obtain ⟨n, hn, hf⟩ := firstSome_some_mem h
        obtain ⟨r2, hr2, hr2e⟩ := Option.map_eq_some'.1 hf
        have hg1v : g1 = some (srcSlash ++ (s.drop 4).take n) :=
          (congrArg Prod.fst hr2e).symm
        rw [hg1v] at hg1
        have hgp : gp = srcSlash ++ (s.drop 4).take n := (Option.some.inj hg1).symm
        rw [List.mem_range'_1] at hn
        refine ⟨(s.drop 4).take n, hgp, ?_, ?_⟩
        · intro he
          rcases List.take_eq_nil_iff.1 he with h0 | h0
          · omega
          · rw [h0] at hn
            simp at hn
            omega
        · intro c hc
          rw [take_eq_take_takeWhile (p := fun c => !pyIsSpace c)
            (s.drop 4) n (by omega)] at hc
          have hmem := (List.take_sublist n _).subset hc
          have hw := List.mem_takeWhile_imp hmem
          simpa using hw
      · cases h

theorem pyStrip_eq_self {s : List Char} (h : ∀ c ∈ s, pyIsSpace c = false) :
    pyStrip s = s := by
  unfold pyStrip
  have h1 : s.dropWhile pyIsSpace = s := by
    cases s with
    | nil => rfl
    | cons c t =>
      exact List.dropWhile_cons_of_neg
        (by rw [h c (List.mem_cons_self c t)]; simp)
  rw [h1]
  cases hg : s.getLast? with
  | none => rw [List.getLast?_eq_none_iff.1 hg]; rfl
  | some c => exact rstripP_eq_self_of_getLast hg (h c (getLast?_mem_list hg))

theorem matchStep_of_runElems {s g1 g2 rest : List Char}
    (hre : runElems thePattern s = some (some g1, some g2, rest)) :
    matchStep s = .found (g1, g2) rest := by
  unfold matchStep
  rw [hre]

theorem matchStep_of_none {s : List Char}
    (hre : runElems thePattern s = none) : matchStep s = .noMatch := by
  unfold matchStep
  rw [hre]

theorem matchStep_found_inv {s rest : List Char} {m : List Char × List Char}
    (h : matchStep s = .found m rest) :
    runElems thePattern s = some (some m.1, some m.2, rest) := by
  unfold matchStep at h
  cases hre : runElems thePattern s with
  | none => rw [hre] at h; cases h
  | some res =>
    obtain ⟨g1, g2, r⟩ := res
    rw [hre] at h
    cases g1 with
    | none => cases h
    | some g1v =>
      cases g2 with
      | none => cases h
      | some g2v =>
        simp only [StepOutcome.found.injEq] at h
        rw [← h.1, ← h.2]

theorem findAllF_zero (s : List Char) : findAllF 0 s = [] := rfl

theorem findAllF_found (f : Nat) (s : List Char) (m : List Char × List Char)
    (rest : List Char) (hm : matchStep s = .found m rest) :
    findAllF (f + 1) s = m :: findAllF f rest := by
  simp only [findAllF, hm]

theorem findAllF_noMatch_nil (f : Nat) (hm : matchStep [] = .noMatch) :
    findAllF (f + 1) ([] : List Char) = [] := by
  simp only [findAllF, hm]

theorem findAllF_noMatch_cons (f : Nat) (c : Char) (t : List Char)
    (hm : matchStep (c :: t) = .noMatch) :
    findAllF (f + 1) (c :: t) = findAllF f t := by
  simp only [findAllF, hm]

theorem findAllF_g1 :
    ∀ (fuel : Nat) (s : List Char), ∀ m ∈ findAllF fuel s,
      ∃ tok, m.1 = srcSlash ++ tok ∧ tok ≠ [] ∧
        ∀ c ∈ tok, pyIsSpace c = false := by
  intro fuel s
  induction fuel, s using findAllF.induct with
  | case1 s =>
    intro m hm
    rw [findAllF_zero] at hm
    cases hm
  | case2 f s m2 rest hstep ih =>
    intro m hm
    rw [findAllF_found f s m2 rest hstep] at hm
    rcases List.mem_cons.1 hm with rfl | h2
    · exact runElems_g1 thePattern s (some m.1) (some m.2) rest
        (matchStep_found_inv hstep) m.1 rfl
    · exact ih m h2
  | case3 f s hstep =>
    intro m hm
    simp only [findAllF, hstep] at hm
    cases hm
  | case4 f hstep =>
    intro m hm
    rw [findAllF_noMatch_nil f hstep] at hm
    cases hm
  | case5 f c t hstep ih =>
    intro m hm
    rw [findAllF_noMatch_cons f c t hstep] at hm
    exact ih m hm

/-- Claim C8: every Change Block produced by the parser has a nonempty
target path that begins with the fixed source-root segment `src/`. -/
theorem parse_target_path_src (doc p raw : List Char)
    (h : (p, raw) ∈ parseChangeBlocks doc) :
    p ≠ [] ∧ p.take 4 = srcSlash := by
  unfold parseChangeBlocks findAll at h
  obtain ⟨m, hm, he⟩ := List.mem_map.1 h
  obtain ⟨tok, htok, hne, hsp⟩ := findAllF_g1 _ _ m hm
  have hsrc : ∀ c ∈ srcSlash, pyIsSpace c = false := by decide
  have hall : ∀ c ∈ m.1, pyIsSpace c = false := by
    rw [htok]
    intro c hc
    rcases List.mem_append.1 hc with h1 | h2
    · exact hsrc c h1
    · exact hsp c h2
  have hp : p = m.1 := by
    have hfst : pyStrip m.1 = p := congrArg Prod.fst he
    rw [← hfst, pyStrip_eq_self hall]
  constructor
  · intro hpe
    rw [hp, htok] at hpe
    rcases List.append_eq_nil.1 hpe with ⟨h1, _⟩
    cases h1
  · have htl := List.take_left srcSlash tok
    rw [show srcSlash.length = 4 by decide] at htl
    rw [hp, htok]
    exact htl

/-! ## Claim C2: stepping lemmas for the pattern matcher

Each lemma advances the matcher across one pattern element on a string of the
block's shape.  For greedy elements the engine's first candidate (the maximal
consumption) is the intended one, so success of the continuation suffices;
for the lazy groups every shorter candidate must be shown to fail. -/

theorem takeWhile_append_all {p : Char → Bool} {w : List Char} (t : List Char)
    (hw : ∀ c ∈ w, p c = true) :
    (w ++ t).takeWhile p = w ++ t.takeWhile p := by
  induction w with
  | nil => rfl
  | cons c w2 ih =>
    rw [List.cons_append, List.takeWhile_cons_of_pos (hw c (List.mem_cons_self c w2)),
      ih (fun x hx => hw x (List.mem_cons_of_mem c hx)), List.cons_append]

theorem takeWhile_nil_of_head {p : Char → Bool} {t : List Char}
    (ht : ∀ c, t.head? = some c → p c = false) : t.takeWhile p = [] := by
  cases t with
  | nil => rfl
  | cons c t2 => exact List.takeWhile_cons_of_neg (by rw [ht c rfl]; simp)

theorem head_not_of {t : List Char} {a : Char} {p : Char → Bool}
    (ha : t.head? = some a) (hsp : p a = false) :
    ∀ c, t.head? = some c → p c = false := by
  intro c hc
  rw [ha] at hc
  rw [← Option.some.inj hc]
  exact hsp

theorem firstSome_reverse_range_top {f : Nat → Option MatchRes} {k : Nat}
    {r : MatchRes} (h : f k = some r) :
    firstSome f ((List.range (k + 1)).reverse) = some r := by
  rw [List.range_succ, List.reverse_append]
  exact firstSome_cons_some h

theorem lit_step {cs : List Char} {es : List Elem} {s s2 : List Char}
    {r : MatchRes} (hs : s = cs ++ s2) (h : runElems es s2 = some r) :
    runElems (.lit cs :: es) s = some r := by
  subst hs
  simp only [runElems, List.take_left, List.drop_left]
  simpa using h

theorem wsStar_step {es : List Elem} {w t s : List Char} {r : MatchRes}
    (hs : s = w ++ t) (hw : ∀ c ∈ w, pyIsSpace c = true)
    (ht : ∀ c, t.head? = some c → pyIsSpace c = false)
    (h : runElems es t = some r) :
    runElems (.wsStar :: es) s = some r := by
  subst hs
  have htw : (w ++ t).takeWhile pyIsSpace = w := by
    rw [takeWhile_append_all t hw, takeWhile_nil_of_head ht, List.append_nil]
  simp only [runElems, htw]
  refine firstSome_reverse_range_top ?_
  show runElems es ((w ++ t).drop w.length) = some r
  rw [List.drop_left]
  exact h

theorem optLang_step {es : List Elem} {lang t s : List Char} {r : MatchRes}
    (hs : s = lang ++ t) (hl : ∀ c ∈ lang, (c.isAlpha || c.isDigit) = true)
    (ht : ∀ c, t.head? = some c → (c.isAlpha || c.isDigit) = false)
    (h : runElems es t = some r) :
    runElems (.optLang :: es) s = some r := by
  subst hs
  have htw : (lang ++ t).takeWhile (fun c => c.isAlpha || c.isDigit) = lang := by
    rw [takeWhile_append_all t hl, takeWhile_nil_of_head ht, List.append_nil]
  simp only [runElems, htw]
  refine firstSome_reverse_range_top ?_
  show runElems es ((lang ++ t).drop lang.length) = some r
  rw [List.drop_left]
  exact h

theorem nlFreeStar_step {es : List Elem} {w t s : List Char} {r : MatchRes}
    (hs : s = w ++ t) (hw : ∀ c ∈ w, (!(c == '\n')) = true)
    (ht : ∀ c, t.head? = some c → (!(c == '\n')) = false)
    (h : runElems es t = some r) :
    runElems (.nlFreeStar :: es) s = some r := by
  subst hs
  have htw : (w ++ t).takeWhile (fun c => !(c == '\n')) = w := by
    rw [takeWhile_append_all t hw, takeWhile_nil_of_head ht, List.append_nil]
  simp only [runElems, htw]
  refine firstSome_reverse_range_top ?_
  show runElems es ((w ++ t).drop w.length) = some r
  rw [List.drop_left]
  exact h

theorem runElems_wsStar_eq (es : List Elem) (s : List Char) :
    runElems (.wsStar :: es) s =
      firstSome (fun n => runElems es (s.drop n))
        ((List.range ((s.takeWhile pyIsSpace).length + 1)).reverse) := by
  simp only [runElems]

theorem runElems_lit_eq (cs : List Char) (es : List Elem) (s : List Char) :
    runElems (.lit cs :: es) s =
      if s.take cs.length = cs then runElems es (s.drop cs.length) else none := by
  simp only [runElems]

theorem runElems_pathGroup_eq (es : List Elem) (s : List Char) :
    runElems (.pathGroup :: es) s =
      if s.take 4 = srcSlash then
        firstSome
          (fun n =>
            (runElems es ((s.drop 4).drop n)).map
              (fun r => (some (srcSlash ++ (s.drop 4).take n), r.2.1, r.2.2)))
          (List.range' 1 (((s.drop 4).takeWhile (fun c => !pyIsSpace c)).length))
      else none := by
  simp only [runElems]

theorem runElems_contentGroup_eq (es : List Elem) (s : List Char) :
    runElems (.contentGroup :: es) s =
      firstSome
        (fun n => (runElems es (s.drop n)).map
          (fun r => (r.1, some (s.take n), r.2.2)))
        (List.range (s.length + 1)) := by
  simp only [runElems]

theorem wsStar_lit_fail_char {d : List Char} {es2 : List Elem} {u : List Char}
    {a : Char}
    (hhead : ∀ k ≤ (u.takeWhile pyIsSpace).length,
      ∀ c, (u.drop k).head? = some c → c ≠ a)
    (hca : d.head? = some a) :
    runElems (.wsStar :: .lit d :: es2) u = none := by
  rw [runElems_wsStar_eq]
  apply firstSome_eq_none
  intro n hn
  rw [List.mem_reverse, List.mem_range] at hn
  rw [runElems_lit_eq, if_neg ?_]
  intro he
  cases hud : u.drop n with
  | nil =>
    rw [hud] at he
    simp only [List.take_nil] at he
    rw [← he] at hca
    cases hca
  | cons x rest =>
    cases hcs : d with
    | nil => rw [hcs] at hca; cases hca
    | cons b d2 =>
      rw [hud, hcs, List.length_cons, List.take_succ_cons] at he
      have hx : x = b := (List.cons_eq_cons.1 he).1
      have hb : b = a := by
        rw [hcs] at hca
        exact Option.some.inj hca
      exact hhead n (by omega) x (by rw [hud]; rfl) (by rw [hx, hb])

theorem wsStar_lit_fail_take {cs : List Char} {es2 : List Elem} {u : List Char}
    (hhead : ∀ c, u.head? = some c → pyIsSpace c = false)
    (htake : u.take cs.length ≠ cs) :
    runElems (.wsStar :: .lit cs :: es2) u = none := by
  rw [runElems_wsStar_eq, takeWhile_nil_of_head hhead]
  apply firstSome_eq_none
  intro n hn
  have hn0 : n = 0 := by
    rw [List.mem_reverse, List.mem_range] at hn
    simpa using hn
  subst hn0
  rw [List.drop_zero, runElems_lit_eq, if_neg htake]

theorem take3_append {l t2 : List Char} {n : Nat}
    (hnd : (l.drop n).take 3 ≠ dashes) :
    (l.drop n ++ ' ' :: t2).take 3 ≠ dashes := by
  intro he
  cases hld : l.drop n with
  | nil =>
    rw [hld] at he
    simp [dashes] at he
  | cons a l1 =>
    cases l1 with
    | nil =>
      rw [hld] at he
      simp [dashes] at he
    | cons b l2 =>
      cases l2 with
      | nil =>
        rw [hld] at he
        simp [dashes] at he
      | cons d l3 =>
        rw [List.take_append_of_le_length (by rw [hld]; simp)] at he
        rw [hld] at hnd
        rw [hld] at he
        exact hnd he

theorem head_of_drop_tok {tok : List Char} {v : List Char} {n : Nat}
    (hn : n < tok.length) (hnw : ∀ c ∈ tok, pyIsSpace c = false) :
    ∀ c, ((tok.drop n ++ v).head? = some c) → pyIsSpace c = false := by
  intro c hc
  have hne : tok.drop n ≠ [] := by
    intro he
    have hl := congrArg List.length he
    rw [List.length_drop] at hl
    simp only [List.length_nil] at hl
    omega
  rw [List.head?_append] at hc
  cases hh : (tok.drop n).head? with
  | none => exact absurd (List.head?_eq_none_iff.1 hh) hne
  | some a =>
    rw [hh] at hc
    have ha : a ∈ tok := by
      have h2 := List.head?_drop tok n
      rw [hh] at h2
      exact List.getElem?_mem h2.symm
    rw [← Option.some.inj hc]
    exact hnw a ha

theorem pathGroup_step {es2 : List Elem} {tok t : List Char}
    {og1 og2 : Option (List Char)} {rr : List Char}
    (htok : tok ≠ []) (hnw : ∀ c ∈ tok, pyIsSpace c = false)
    (hnd : ∀ n < tok.length, (tok.drop n).take 3 ≠ dashes)
    (h : runElems (.wsStar :: .lit dashes :: es2) (' ' :: t) =
      some (og1, og2, rr)) :
    runElems (.pathGroup :: .wsStar :: .lit dashes :: es2)
      (srcSlash ++ (tok ++ ' ' :: t)) =
      some (some (srcSlash ++ tok), og2, rr) := by
  rw [runElems_pathGroup_eq]
  have htake4 : (srcSlash ++ (tok ++ ' ' :: t)).take 4 = srcSlash := by
    rw [show (4 : Nat) = srcSlash.length from rfl, List.take_left]
  have hs4 : (srcSlash ++ (tok ++ ' ' :: t)).drop 4 = tok ++ ' ' :: t := by
    rw [show (4 : Nat) = srcSlash.length from rfl, List.drop_left]
  rw [htake4, if_pos rfl, hs4]
  have hrun : ((tok ++ ' ' :: t).takeWhile (fun c => !pyIsSpace c)).length =
      tok.length := by
    rw [takeWhile_append_all (' ' :: t) (fun c hc => by rw [hnw c hc]; rfl),
      takeWhile_nil_of_head (head_not_of (t := ' ' :: t) (a := ' ') rfl (by decide)),
      List.append_nil]
  obtain ⟨k, hk⟩ : ∃ k, tok.length = k + 1 := by
    cases htk : tok with
    | nil => exact absurd htk htok
    | cons a b => exact ⟨b.length, by simp⟩
  rw [hrun, hk, List.range'_concat, firstSome_append_none ?fail]
  case fail =>
    intro n hn
    rw [List.mem_range'_1] at hn
    have hnlt : n < tok.length := by omega
    have hdrop : (tok ++ ' ' :: t).drop n = tok.drop n ++ ' ' :: t :=
      List.drop_append_of_le_length (by omega)
    show ((runElems (.wsStar :: .lit dashes :: es2)
        ((tok ++ ' ' :: t).drop n)).map
        (fun r => (some (srcSlash ++ (tok ++ ' ' :: t).take n), r.2.1, r.2.2)))
      = none
    rw [hdrop, wsStar_lit_fail_take (head_of_drop_tok hnlt hnw)
      (by rw [show dashes.length = 3 from rfl]; exact take3_append (hnd n hnlt))]
    rfl
  have hk1 : 1 + 1 * k = tok.length := by omega
  rw [hk1]
  apply firstSome_cons_some
  show ((runElems (.wsStar :: .lit dashes :: es2)
      ((tok ++ ' ' :: t).drop tok.length)).map
      (fun r => (some (srcSlash ++ (tok ++ ' ' :: t).take tok.length), r.2.1, r.2.2)))
    = some (some (srcSlash ++ tok), og2, rr)
  rw [List.drop_left, List.take_left, h]
  rfl

theorem takeWhile_length_lt {p : Char → Bool} :
    ∀ {l : List Char} (v : List Char) {c : Char},
      l.getLast? = some c → p c = false →
      ((l ++ v).takeWhile p).length < l.length := by
  intro l
  induction l with
  | nil => intro v c hl _; cases hl
  | cons a l2 ih =>
    intro v c hl hc
    cases hpa : p a with
    | false =>
      rw [List.cons_append, List.takeWhile_cons_of_neg (by rw [hpa]; simp)]
      simp
    | true =>
      cases l2 with
      | nil =>
        rw [List.getLast?_singleton] at hl
        rw [← Option.some.inj hl] at hc
        rw [hpa] at hc
        cases hc
      | cons b l3 =>
        rw [List.cons_append, List.takeWhile_cons_of_pos hpa]
        have hlt := ih v (by rw [← List.getLast?_cons_cons]; exact hl) hc
        simp only [List.length_cons] at hlt ⊢
        omega

theorem contentGroup_step {es2 : List Elem} {ct t : List Char}
    {og1 og2x : Option (List Char)} {rr : List Char}
    (hct1 : '`' ∉ ct)
    (hctl : ∀ c, ct.getLast? = some c → pyIsSpace c = false)
    (h : runElems (.wsStar :: .lit fence :: es2) ('\n' :: (fence ++ t)) =
      some (og1, og2x, rr)) :
    runElems (.contentGroup :: .wsStar :: .lit fence :: es2)
      (ct ++ '\n' :: (fence ++ t)) = some (og1, some ct, rr) := by
  rw [runElems_contentGroup_eq]
  have hlen : (ct ++ '\n' :: (fence ++ t)).length + 1 =
      (4 + t.length + 1) + ct.length := by
    simp [fence]
    omega
  have hsplit : List.range ((ct ++ '\n' :: (fence ++ t)).length + 1) =
      List.range' 0 ct.length ++ List.range' ct.length (4 + t.length + 1) := by
    rw [List.range_eq_range', hlen,
      ← List.range'_append 0 ct.length (4 + t.length + 1) 1]
    simp
  rw [hsplit, firstSome_append_none ?fail, List.range'_succ]
  case fail =>
    intro n hn
    rw [List.mem_range'_1] at hn
    have hnlt : n < ct.length := by omega
    have hne : ct.drop n ≠ [] := by
      intro he
      have hl := congrArg List.length he
      rw [List.length_drop] at hl
      simp only [List.length_nil] at hl
      omega
    have hdrop : (ct ++ '\n' :: (fence ++ t)).drop n =
        ct.drop n ++ '\n' :: (fence ++ t) :=
      List.drop_append_of_le_length (by omega)
    show ((runElems (.wsStar :: .lit fence :: es2)
        ((ct ++ '\n' :: (fence ++ t)).drop n)).map
        (fun r => (r.1, some ((ct ++ '\n' :: (fence ++ t)).take n), r.2.2)))
      = none
    rw [hdrop, wsStar_lit_fail_char (d := fence) (a := '`') ?hh rfl]
    · rfl
    case hh =>
      intro k hk c hc
      have hlast : (ct.drop n).getLast? = ct.getLast? := by
        rw [List.getLast?_drop, if_neg (by omega)]
      have hrunlt : (((ct.drop n) ++ '\n' :: (fence ++ t)).takeWhile
          pyIsSpace).length < (ct.drop n).length := by
        cases hg : ct.getLast? with
        | none => exact absurd (List.getLast?_eq_none_iff.1 hg) (by
            intro he
            rw [he] at hnlt
            simp at hnlt)
        | some clast =>
          exact takeWhile_length_lt ('\n' :: (fence ++ t))
            (by rw [hlast]; exact hg) (hctl clast hg)
      have hk2 : k < (ct.drop n).length := by omega
      have hdrop2 : (ct.drop n ++ '\n' :: (fence ++ t)).drop k =
          ct.drop (n + k) ++ '\n' :: (fence ++ t) := by
        rw [List.drop_append_of_le_length (by omega), List.drop_drop]
      rw [hdrop2] at hc
      have hk3 : n + k < ct.length := by
        rw [List.length_drop] at hk2
        omega
      have hne2 : ct.drop (n + k) ≠ [] := by
        intro he
        have hl := congrArg List.length he
        rw [List.length_drop] at hl
        simp only [List.length_nil] at hl
        omega
      rw [List.head?_append] at hc
      cases hh2 : (ct.drop (n + k)).head? with
      | none => exact absurd (List.head?_eq_none_iff.1 hh2) hne2
      | some a2 =>
        rw [hh2] at hc
        have ha2 : a2 ∈ ct := by
          have h2 := List.head?_drop ct (n + k)
          rw [hh2] at h2
          exact List.getElem?_mem h2.symm
        intro hca
        rw [← Option.some.inj hc] at hca
        rw [hca] at ha2
        exact hct1 ha2
  apply firstSome_cons_some
  show ((runElems (.wsStar :: .lit fence :: es2)
      ((ct ++ '\n' :: (fence ++ t)).drop ct.length)).map
      (fun r => (r.1, some ((ct ++ '\n' :: (fence ++ t)).take ct.length), r.2.2)))
    = some (og1, some ct, rr)
  rw [List.drop_left, List.take_left, h]
  rfl

theorem contentGroup_empty_step {es2 : List Elem} {u : List Char}
    {og1 og2x : Option (List Char)} {rr : List Char}
    (h : runElems es2 u = some (og1, og2x, rr)) :
    runElems (.contentGroup :: es2) u = some (og1, some [], rr) := by
  rw [runElems_contentGroup_eq, List.range_succ_eq_map]
  apply firstSome_cons_some
  show ((runElems es2 (u.drop 0)).map
      (fun r => (r.1, some (u.take 0), r.2.2))) = some (og1, some [], rr)
  rw [List.drop_zero, List.take_zero, h]
  rfl

theorem runElems_endSection {tok tail : List Char}
    (hnw : ∀ c ∈ tok, pyIsSpace c = false) :
    runElems [.wsStar, .lit fenceMD, .wsStar, .lit dashes, .wsStar,
        .lit endPhrase, .nlFreeStar, .wsStar, .lit fence]
      (('\n' :: fenceMD) ++ (('\n' :: dashes) ++ ((' ' :: endPhrase) ++
        ((' ' :: srcSlash) ++ (tok ++ ((' ' :: dashes) ++
        (('\n' :: fence) ++ tail))))))) =
      some (none, none, tail) := by
  refine wsStar_step (w := ['\n']) rfl (by decide)
    (head_not_of (a := '`') rfl (by decide)) ?_
  refine lit_step rfl ?_
  refine wsStar_step (w := ['\n']) rfl (by decide)
    (head_not_of (a := '-') rfl (by decide)) ?_
  refine lit_step rfl ?_
  refine wsStar_step (w := [' ']) rfl (by decide)
    (head_not_of (a := 'E') rfl (by decide)) ?_
  refine lit_step rfl ?_
  refine nlFreeStar_step (w := ' ' :: (srcSlash ++ (tok ++ (' ' :: dashes))))
    (t := '\n' :: (fence ++ tail)) ?hs ?hw
    (head_not_of (a := '\n') rfl (by decide)) ?_
  case hs => simp
  case hw =>
    intro c hc
    rcases List.mem_cons.1 hc with rfl | hc2
    · decide
    · rcases List.mem_append.1 hc2 with h1 | h2
      · have hsrc : ∀ x ∈ srcSlash, (!(x == '\n')) = true := by decide
        exact hsrc c h1
      · rcases List.mem_append.1 h2 with h3 | h4
        · rw [ne_newline_of_not_space (hnw c h3)]
          rfl
        · rcases List.mem_cons.1 h4 with rfl | h5
          · decide
          · have hd : ∀ x ∈ dashes, (!(x == '\n')) = true := by decide
            exact hd c h5
  refine wsStar_step (w := ['\n']) rfl (by decide)
    (head_not_of (a := '`') rfl (by decide)) ?_
  refine lit_step rfl ?_
  rfl

set_option maxHeartbeats 2000000 in
theorem runElems_block {tok lang ct tail : List Char}
    (htok : tok ≠ []) (hnw : ∀ c ∈ tok, pyIsSpace c = false)
    (hnd : ∀ n < tok.length, (tok.drop n).take 3 ≠ dashes)
    (hlang : ∀ c ∈ lang, (c.isAlpha || c.isDigit) = true)
    (hct1 : '`' ∉ ct)
    (hcth : ∀ c, ct.head? = some c → pyIsSpace c = false)
    (hctl : ∀ c, ct.getLast? = some c → pyIsSpace c = false) :
    runElems thePattern (mkBlockT tok lang ct tail) =
      some (some (srcSlash ++ tok), some ct, tail) := by
  unfold thePattern mkBlockT
  refine lit_step rfl ?_
  refine wsStar_step (w := ['\n']) rfl (by decide)
    (head_not_of (a := '-') rfl (by decide)) ?_
  refine lit_step rfl ?_
  refine wsStar_step (w := [' ']) rfl (by decide)
    (head_not_of (a := 'S') rfl (by decide)) ?_
  refine lit_step rfl ?_
  refine wsStar_step (w := [' ']) rfl (by decide)
    (head_not_of (a := 's') rfl (by decide)) ?_
  refine @pathGroup_step _ _ _ none (some ct) tail htok hnw hnd ?_
  refine wsStar_step (w := [' ']) rfl (by decide)
    (head_not_of (a := '-') rfl (by decide)) ?_
  refine lit_step rfl ?_
  refine wsStar_step (w := ['\n']) rfl (by decide)
    (head_not_of (a := '`') rfl (by decide)) ?_
  refine lit_step rfl ?_
  refine optLang_step rfl hlang (head_not_of (a := '\n') rfl (by decide)) ?_
  cases ct with
  | nil =>
    refine wsStar_step (w := ['\n', '\n']) rfl (by decide)
      (head_not_of (a := '`') rfl (by decide)) ?_
    refine @contentGroup_empty_step _ _ none none tail ?_
    refine wsStar_step (w := []) rfl
      (by decide) (head_not_of (a := '`') rfl (by decide)) ?_
    refine lit_step rfl ?_
    exact runElems_endSection hnw
  | cons c0 ct2 =>
    refine wsStar_step (w := ['\n']) rfl (by decide)
      (head_not_of (a := c0) rfl (hcth c0 rfl)) ?_
    refine @contentGroup_step _ _ _ none none tail hct1 hctl ?_
    refine wsStar_step (w := ['\n']) rfl (by decide)
      (head_not_of (a := '`') rfl (by decide)) ?_
    refine lit_step rfl ?_
    exact runElems_endSection hnw

/-- A successful match never leaves more input than it was given. -/
theorem runElems_rest_le :
    ∀ (es : List Elem) (s : List Char) (r : MatchRes),
      runElems es s = some r → r.2.2.length ≤ s.length := by
  intro es
  induction es with
  | nil =>
    intro s r h
    simp only [runElems] at h
    cases h
    exact Nat.le_refl _
  | cons e es ih =>
    intro s r h
    cases e with
    | lit cs =>
      rw [runElems_lit_eq] at h
      by_cases hc : s.take cs.length = cs
      · rw [if_pos hc] at h
        exact le_trans (ih _ _ h) (by rw [List.length_drop]; omega)
      · rw [if_neg hc] at h
        cases h
    | wsStar =>
      simp only [runElems] at h
      obtain ⟨n, _, hn⟩ := firstSome_some_mem h
      exact le_trans (ih _ _ hn) (by rw [List.length_drop]; omega)
    | pathGroup =>
      rw [runElems_pathGroup_eq] at h
      by_cases hc : s.take 4 = srcSlash
      · rw [if_pos hc] at h
        obtain ⟨n, _, hn⟩ := firstSome_some_mem h
        obtain ⟨r2, hr2, hmap⟩ := Option.map_eq_some'.1 hn
        have : r.2.2 = r2.2.2 := by rw [← hmap]
        rw [this]
        refine le_trans (ih _ _ hr2) ?_
        simp only [List.length_drop]
        omega
      · rw [if_neg hc] at h
        cases h
    | optLang =>
      simp only [runElems] at h
      obtain ⟨n, _, hn⟩ := firstSome_some_mem h
      exact le_trans (ih _ _ hn) (by rw [List.length_drop]; omega)
    | contentGroup =>
      rw [runElems_contentGroup_eq] at h
      obtain ⟨n, _, hn⟩ := firstSome_some_mem h
      obtain ⟨r2, hr2, hmap⟩ := Option.map_eq_some'.1 hn
      have : r.2.2 = r2.2.2 := by rw [← hmap]
      rw [this]
      exact le_trans (ih _ _ hr2) (by rw [List.length_drop]; omega)
    | nlFreeStar =>
      simp only [runElems] at h
      obtain ⟨n, _, hn⟩ := firstSome_some_mem h
      exact le_trans (ih _ _ hn) (by rw [List.length_drop]; omega)

/-- The pattern cannot match at a position whose first character is not a
backtick: the leading ```markdown literal fails at once. -/
theorem runElems_scan_fail {c : Char} {t : List Char} (hc : c ≠ '`') :
    runElems thePattern (c :: t) = none := by
  have hpat : thePattern = .lit fenceMD :: thePattern.tail := rfl
  rw [hpat, runElems_lit_eq, if_neg]
  intro heq
  apply hc
  have h1 : ((c :: t).take fenceMD.length).head? = some c := rfl
  rw [heq] at h1
  exact (Option.some.inj h1).symm

/-- A found match strictly consumes input (the leading literal alone eats
eleven characters). -/
theorem matchStep_found_lt {s rest : List Char} {m : List Char × List Char}
    (h : matchStep s = .found m rest) : rest.length < s.length := by
  have hrun := matchStep_found_inv h
  have hpat : thePattern = .lit fenceMD :: thePattern.tail := rfl
  rw [hpat, runElems_lit_eq] at hrun
  by_cases hc : s.take fenceMD.length = fenceMD
  · rw [if_pos hc] at hrun
    have hlen : fenceMD.length ≤ s.length := by
      have h2 := congrArg List.length hc
      rw [List.length_take] at h2
      omega
    have hle := runElems_rest_le _ _ _ hrun
    simp only [List.length_drop] at hle
    have hpos : 0 < fenceMD.length := by decide
    omega
  · rw [if_neg hc] at hrun
    cases hrun

theorem findAllF_badMatch (f : Nat) (s : List Char)
    (hm : matchStep s = .badMatch) : findAllF (f + 1) s = [] := by
  cases s <;> simp [findAllF, hm]

/-- Fuel irrelevance for the scanner: any fuel exceeding the input length
gives the same result. -/
theorem findAllF_fuel_aux :
    ∀ (n : Nat) (s : List Char), s.length ≤ n →
      ∀ f1 f2, s.length < f1 → s.length < f2 → findAllF f1 s = findAllF f2 s := by
  intro n
  induction n with
  | zero =>
    intro s hs f1 f2 h1 h2
    have hnil : s = [] := List.length_eq_zero.1 (Nat.le_antisymm hs (Nat.zero_le _))
    subst hnil
    obtain ⟨g1, rfl⟩ : ∃ g, f1 = g + 1 := ⟨f1 - 1, by omega⟩
    obtain ⟨g2, rfl⟩ : ∃ g, f2 = g + 1 := ⟨f2 - 1, by omega⟩
    have hm : matchStep [] = .noMatch := by
      rw [matchStep_of_none]
      have hpat : thePattern = .lit fenceMD :: thePattern.tail := rfl
      rw [hpat, runElems_lit_eq, if_neg]
      intro heq
      have := congrArg List.length heq
      rw [List.length_take] at this
      exact absurd this (by decide)
    rw [findAllF_noMatch_nil g1 hm, findAllF_noMatch_nil g2 hm]
  | succ k ih =>
    intro s hs f1 f2 h1 h2
    obtain ⟨g1, rfl⟩ : ∃ g, f1 = g + 1 := ⟨f1 - 1, by omega⟩
    obtain ⟨g2, rfl⟩ : ∃ g, f2 = g + 1 := ⟨f2 - 1, by omega⟩
    cases hm : matchStep s with
    | found m rest =>
      rw [findAllF_found g1 s m rest hm, findAllF_found g2 s m rest hm]
      have hlt := matchStep_found_lt hm
      rw [ih rest (by omega) g1 g2 (by omega) (by omega)]
    | badMatch =>
      rw [findAllF_badMatch g1 s hm, findAllF_badMatch g2 s hm]
    | noMatch =>
      cases s with
      | nil => rw [findAllF_noMatch_nil g1 hm, findAllF_noMatch_nil g2 hm]
      | cons c t =>
        rw [findAllF_noMatch_cons g1 c t hm, findAllF_noMatch_cons g2 c t hm]
        simp only [List.length_cons] at hs h1 h2
        exact ih t (by omega) g1 g2 (by omega) (by omega)

theorem findAllF_fuel {s : List Char} {f1 f2 : Nat}
    (h1 : s.length < f1) (h2 : s.length < f2) :
    findAllF f1 s = findAllF f2 s :=
  findAllF_fuel_aux s.length s (Nat.le_refl _) f1 f2 h1 h2

/-- A text with no backtick contains no match at any position. -/
theorem findAllF_no_backtick :
    ∀ (f : Nat) (s : List Char), '`' ∉ s → findAllF f s = [] := by
  intro f
  induction f with
  | zero => intro s _; exact findAllF_zero s
  | succ g ih =>
    intro s hs
    cases s with
    | nil =>
      refine findAllF_noMatch_nil g ?_
      rw [matchStep_of_none]
      have hpat : thePattern = .lit fenceMD :: thePattern.tail := rfl
      rw [hpat, runElems_lit_eq, if_neg]
      intro heq
      have := congrArg List.length heq
      rw [List.length_take] at this
      exact absurd this (by decide)
    | cons c t =>
      have hc : c ≠ '`' := fun h => hs (h ▸ List.mem_cons_self c t)
      rw [findAllF_noMatch_cons g c t (matchStep_of_none (runElems_scan_fail hc))]
      exact ih t (fun h => hs (List.mem_cons_of_mem c h))

/-- Scanning walks through backtick-free separator text one character at a
time. -/
theorem findAllF_sep :
    ∀ (sep u : List Char) (f : Nat), '`' ∉ sep →
      findAllF (sep.length + f) (sep ++ u) = findAllF f u := by
  intro sep
  induction sep with
  | nil => intro u f _; simp
  | cons c sep2 ih =>
    intro u f hsep
    have hc : c ≠ '`' := fun h => hsep (h ▸ List.mem_cons_self c sep2)
    have hshape : (c :: sep2).length + f = (sep2.length + f) + 1 := by
      simp [List.length_cons]; omega
    rw [hshape]
    show findAllF ((sep2.length + f) + 1) (c :: (sep2 ++ u)) = findAllF f u
    rw [findAllF_noMatch_cons _ c _ (matchStep_of_none (runElems_scan_fail hc))]
    exact ih u f (fun h => hsep (List.mem_cons_of_mem c h))

/-- The wrapper text of one block adds a positive number of characters. -/
theorem mkBlockT_length (tok lang ct tail : List Char) :
    tail.length < (mkBlockT tok lang ct tail).length := by
  simp [mkBlockT, fenceMD, dashes, startPhrase, endPhrase, srcSlash, fence]
  omega

theorem option_all_forall {o : Option Char} {p : Char → Bool}
    (h : (o.all p) = true) : ∀ c, o = some c → (!p c) = false := by
  intro c hc
  rw [hc] at h
  simp only [Option.all_some] at h
  simp [h]

theorem not_space_of_all {o : Option Char}
    (h : (o.all fun c => !pyIsSpace c) = true) :
    ∀ c, o = some c → pyIsSpace c = false := by
  intro c hc
  have := option_all_forall h c hc
  simpa using this

/-- Scanning a well-formed document yields exactly its blocks, in order:
the separators produce no match, and each block matches exactly, capturing
the path token (with its `src/` prefix restored) and the content. -/
theorem findAllF_assemble :
    ∀ (blocks : List (List Char × List Char × List Char × List Char))
      (fin : List Char) (f : Nat), wellFormedDoc blocks fin →
      (assemble blocks fin).length < f →
      findAllF f (assemble blocks fin) =
        blocks.map (fun b => (srcSlash ++ b.2.1, b.2.2.2)) := by
  intro blocks
  induction blocks with
  | nil =>
    intro fin f hwf _
    show findAllF f fin = []
    exact findAllF_no_backtick f fin hwf.2
  | cons b rest ih =>
    obtain ⟨sep, tok, lang, ct⟩ := b
    intro fin f hwf hf
    obtain ⟨hall, hfin⟩ := hwf
    obtain ⟨hsep, htok, hlang, hct⟩ := hall _ (List.mem_cons_self _ _)
    have hasm : assemble ((sep, tok, lang, ct) :: rest) fin =
        sep ++ mkBlockT tok lang ct (assemble rest fin) := rfl
    rw [hasm] at hf ⊢
    have hfsep : f = sep.length + (f - sep.length) := by
      rw [List.length_append] at hf
      omega
    rw [hfsep, findAllF_sep sep _ _ hsep]
    have hm : matchStep (mkBlockT tok lang ct (assemble rest fin)) =
        .found (srcSlash ++ tok, ct) (assemble rest fin) :=
      matchStep_of_runElems
        (runElems_block htok.1 htok.2.1 htok.2.2 hlang hct.1
          (not_space_of_all hct.2.1) (not_space_of_all hct.2.2))
    have hBlen : (mkBlockT tok lang ct (assemble rest fin)).length <
        f - sep.length := by
      rw [List.length_append] at hf
      omega
    have hAlen : (assemble rest fin).length <
        (mkBlockT tok lang ct (assemble rest fin)).length :=
      mkBlockT_length tok lang ct (assemble rest fin)
    have hg : f - sep.length = (f - sep.length - 1) + 1 := by omega
    rw [hg, findAllF_found _ _ _ _ hm]
    rw [ih fin (f - sep.length - 1)
      ⟨fun b hb => hall b (List.mem_cons_of_mem _ hb), hfin⟩ (by omega)]
    simp

/-- `finditer` over a well-formed document, with the scanner's own fuel. -/
theorem findAll_assemble (blocks : List (List Char × List Char × List Char × List Char))
    (fin : List Char) (hwf : wellFormedDoc blocks fin) :
    findAll (assemble blocks fin) =
      blocks.map (fun b => (srcSlash ++ b.2.1, b.2.2.2)) :=
  findAllF_assemble blocks fin _ hwf (Nat.lt_succ_self _)

/-- C2 (counterexample): a document written in exactly the delimiter grammar
the claim describes — an opening marker line `--- START OF MODIFIED FILE
src/a.txt ---`, a triple-backtick fenced content region, and a closing marker
line `--- END OF MODIFIED FILE src/a.txt ---`, with no ```markdown fence
around the marker lines — contains one such block, yet `parseChangeBlocks`
returns no Change Block at all: `file_pattern` additionally requires each
marker line to be wrapped in a ```markdown fence, which the claim's grammar
omits. -/
theorem parse_claim_grammar_empty : parseChangeBlocks claimGrammarDoc = [] := by
  decide

/-- C2 (amended): for every well-formed document in the grammar
`file_pattern` actually accepts — `k` blocks, each with its marker lines
wrapped in ```markdown fences, a backtick-free separator before each block
and after the last, a whitespace-free path token without `---`, an
alphanumeric language tag, and backtick-free content not starting or ending
in whitespace — `parseChangeBlocks` returns exactly `k` Change Blocks in
document order, each with target path `src/` plus the path token (already
whitespace-trimmed) and raw text the fenced content. -/
theorem parse_wellFormed_blocks
    (blocks : List (List Char × List Char × List Char × List Char))
    (fin : List Char) (hwf : wellFormedDoc blocks fin) :
    parseChangeBlocks (assemble blocks fin) =
      blocks.map (fun b => (srcSlash ++ b.2.1, b.2.2.2)) ∧
    (parseChangeBlocks (assemble blocks fin)).length = blocks.length := by
  have hfa := findAll_assemble blocks fin hwf
  constructor
  · show (findAll (assemble blocks fin)).map _ = _
    rw [hfa, List.map_map]
    refine List.map_congr_left ?_
    intro b hb
    obtain ⟨hsep, htok, hlang, hct⟩ := hwf.1 b hb
    have hns : ∀ c ∈ srcSlash ++ b.2.1, pyIsSpace c = false := by
      intro c hc
      rcases List.mem_append.1 hc with h1 | h2
      · have hsrc : ∀ x ∈ srcSlash, pyIsSpace x = false := by decide
        exact hsrc c h1
      · exact htok.2.1 c h2
    show (pyStrip (srcSlash ++ b.2.1), b.2.2.2) = (srcSlash ++ b.2.1, b.2.2.2)
    rw [pyStrip_eq_self hns]
  · show ((findAll (assemble blocks fin)).map _).length = _
    rw [List.length_map, hfa, List.length_map]

instance goodTokDec (tok : List Char) : Decidable (goodTok tok) := by
  unfold goodTok
  infer_instance

instance goodLangDec (lang : List Char) : Decidable (goodLang lang) := by
  unfold goodLang
  infer_instance

instance goodContentDec (ct : List Char) : Decidable (goodContent ct) := by
  unfold goodContent
  infer_instance

instance goodSepDec (sep : List Char) : Decidable (goodSep sep) := by
  unfold goodSep
  infer_instance

instance wellFormedDocDec
    (blocks : List (List Char × List Char × List Char × List Char))
    (fin : List Char) : Decidable (wellFormedDoc blocks fin) := by
  unfold wellFormedDoc
  infer_instance

theorem parse_wellFormed_blocks_witness :
    wellFormedDoc [("intro\n".toList, "a.ts".toList, "ts".toList,
        "x".toList)] "after\n".toList ∧
      (parseChangeBlocks (assemble [("intro\n".toList, "a.ts".toList,
          "ts".toList, "x".toList)] "after\n".toList) =
        [("intro\n".toList, "a.ts".toList, "ts".toList, "x".toList)].map
          (fun b => (srcSlash ++ b.2.1, b.2.2.2)) ∧
      (parseChangeBlocks (assemble [("intro\n".toList, "a.ts".toList,
          "ts".toList, "x".toList)] "after\n".toList)).length =
        [("intro\n".toList, "a.ts".toList, "ts".toList, "x".toList)].length) :=
  ⟨by decide, parse_wellFormed_blocks _ _ (by decide)⟩

theorem clean_content_idempotent_witness :
    subTrailingFence (clean_content "hello world".toList) =
      clean_content "hello world".toList ∧
    clean_content (clean_content "hello world".toList) =
      clean_content "hello world".toList :=
  ⟨by decide, clean_content_idempotent_of_no_trailing_fence _ (by decide)⟩

theorem sync_no_matches_witness :
    findAll "hello".toList = [] ∧
    sync_changes_to_src (fun _ => true) "hello".toList [] = ([], 0, 0) :=
  ⟨by decide, sync_no_matches _ _ _ (by decide)⟩

theorem main_cancel_on_decline_witness :
    pyLower (pyStrip "n".toList) ≠ ['y'] ∧
    mainModel true "n".toList (fun _ => true) "d".toList [] =
      (MainOutcome.cancelled, []) :=
  ⟨by decide, main_cancel_on_decline _ _ _ _ (by decide)⟩

set_option maxRecDepth 8000

set_option maxHeartbeats 4000000 in
theorem sync_last_write_wins_witness :
    (∀ m ∈ findAll "```markdown\n--- START OF MODIFIED FILE src/a.ts ---\n```\nx\n```\n```markdown\n--- END OF MODIFIED FILE ---\n```\n```markdown\n--- START OF MODIFIED FILE src/a.ts ---\n```\ny\n```\n```markdown\n--- END OF MODIFIED FILE ---\n```".toList,
      (fun _ => true : List Char → Bool) (pyStrip m.1) = true) ∧
    ((findAll "```markdown\n--- START OF MODIFIED FILE src/a.ts ---\n```\nx\n```\n```markdown\n--- END OF MODIFIED FILE ---\n```\n```markdown\n--- START OF MODIFIED FILE src/a.ts ---\n```\ny\n```\n```markdown\n--- END OF MODIFIED FILE ---\n```".toList).filter
        (fun m => pyStrip m.1 == "src/a.ts".toList)).getLast? =
      some ("src/a.ts".toList, "y".toList) ∧
    ((sync_changes_to_src (fun _ => true) "```markdown\n--- START OF MODIFIED FILE src/a.ts ---\n```\nx\n```\n```markdown\n--- END OF MODIFIED FILE ---\n```\n```markdown\n--- START OF MODIFIED FILE src/a.ts ---\n```\ny\n```\n```markdown\n--- END OF MODIFIED FILE ---\n```".toList []).1).lookup
        "src/a.ts".toList = some (clean_content "y".toList) :=
  ⟨by decide, by decide,
    sync_last_write_wins (fun _ => true)
      "```markdown\n--- START OF MODIFIED FILE src/a.ts ---\n```\nx\n```\n```markdown\n--- END OF MODIFIED FILE ---\n```\n```markdown\n--- START OF MODIFIED FILE src/a.ts ---\n```\ny\n```\n```markdown\n--- END OF MODIFIED FILE ---\n```".toList []
      "src/a.ts".toList ("src/a.ts".toList, "y".toList)
      (by decide) (by decide)⟩

set_option maxHeartbeats 4000000 in
theorem parse_target_path_src_witness :
    ("src/a.ts".toList, "let x = 1".toList) ∈
      parseChangeBlocks "```markdown\n--- START OF MODIFIED FILE src/a.ts ---\n```typescript\nlet x = 1\n```\n```markdown\n--- END OF MODIFIED FILE ---\n```".toList ∧
    ("src/a.ts".toList ≠ [] ∧ ("src/a.ts".toList).take 4 = srcSlash) :=
  ⟨by decide,
    parse_target_path_src
      "```markdown\n--- START OF MODIFIED FILE src/a.ts ---\n```typescript\nlet x = 1\n```\n```markdown\n--- END OF MODIFIED FILE ---\n```".toList
      "src/a.ts".toList "let x = 1".toList (by decide)⟩

end MarkdownSync
